import Mathlib

/-!
Verification of the blackout-breaker redaction pipeline (`PDFProcessor` in the
repository, plus the overlay renderer in `js/app.js`) against its
natural-language specification.

The JavaScript code is shallowly embedded:
* JS numbers are modelled as exact rationals (`ℚ`) for the text-geometry code
  and as integers (`ℤ`) / naturals (`ℕ`) for the pixel-space code, which only
  ever manipulates integer coordinates;
* the pixel buffer (`ImageData`) is a width, a height and a flat list of RGBA
  samples; an out-of-range JS array access yields `undefined`, and
  `undefined < n` is `false`, which we model by an `Option`-valued lookup that
  compares to `false` when absent;
* the page-wide JS `Set` of assigned fragment indices is a `List ℕ`;
* `Array.prototype.sort` with the source's comparator is modelled as a stable
  insertion sort using the comparator as a binary relation.
-/

/-! ## Rectangles and `mergeRedactions` (README lines 431-482) -/

/-- Raster-space rectangle `{x, y, width, height}`.  The source records also
carry `page` and the derived document-space fields (`pdfX = x / scale`, ...);
those are omitted because they are determined by the raster box. -/
structure Rect where
  x : ℤ
  y : ℤ
  width : ℤ
  height : ℤ
deriving DecidableEq, Repr

/-- The fixed merge gap of 10 raster pixels (`const gap = 10`). -/
def gapPx : ℤ := 10

/-- The absorption test of `mergeRedactions`: the current accumulated box,
expanded by `gap` on all four sides, intersects `other` (closed boxes).  Note
that only `current` is expanded, `other` is not. -/
def adjacentB (cur other : Rect) : Bool :=
  decide (cur.x - gapPx ≤ other.x + other.width) &&
  decide (cur.x + cur.width + gapPx ≥ other.x) &&
  decide (cur.y - gapPx ≤ other.y + other.height) &&
  decide (cur.y + cur.height + gapPx ≥ other.y)

/-- Bounding-box union, as computed by the absorption branch of
`mergeRedactions` (`newX`/`newY`/`newMaxX`/`newMaxY`). -/
def bboxUnion (cur other : Rect) : Rect :=
  ⟨min cur.x other.x, min cur.y other.y,
   max (cur.x + cur.width) (other.x + other.width) - min cur.x other.x,
   max (cur.y + cur.height) (other.y + other.height) - min cur.y other.y⟩

/-- One iteration of the inner `for (let j = 0; ...)` merge loop body: skip
consumed indices, otherwise absorb an adjacent rectangle into the accumulated
box and raise the `didMerge` flag. -/
def absorbStep : Rect × List ℕ × Bool → ℕ × Rect → Rect × List ℕ × Bool
  | (cur, us, dm), (j, other) =>
    if j ∈ us then (cur, us, dm)
    else if adjacentB cur other then (bboxUnion cur other, j :: us, true)
    else (cur, us, dm)

/-- One full `for (let j = 0; ...)` pass of the inner merge loop: every
unconsumed rectangle adjacent to the accumulated box is absorbed; the `Bool`
component is the `didMerge` flag. -/
def absorbPass (l : List Rect) (st : Rect × List ℕ × Bool) : Rect × List ℕ × Bool :=
  l.enum.foldl absorbStep st

/-- The `while (didMerge)` loop.  Each productive pass consumes at least one
fresh index, so `l.length + 1` units of fuel always reach the fixpoint. -/
def absorbLoop (l : List Rect) : ℕ → Rect → List ℕ → Rect × List ℕ
  | 0, cur, us => (cur, us)
  | fuel+1, cur, us =>
    let res := absorbPass l (cur, us, false)
    if res.2.2 then absorbLoop l fuel res.1 res.2.1 else (res.1, res.2.1)

/-- One iteration of the outer `for (let i = 0; ...)` merge loop body: an
unconsumed rectangle is copied into `current`, the inner loop runs, and the
accumulated box is pushed onto `merged`. -/
def mergeStep (l : List Rect) : List ℕ × List Rect → ℕ × Rect → List ℕ × List Rect
  | (us, merged), (i, r) =>
    if i ∈ us then (us, merged)
    else
      let res := absorbLoop l (l.length + 1) r (i :: us)
      (res.2, merged ++ [res.1])

/-- `PDFProcessor.mergeRedactions`: lists of fewer than two rectangles are
returned as-is; otherwise each not-yet-consumed rectangle seeds an accumulated
box that greedily absorbs unconsumed rectangles until a pass absorbs nothing,
and the accumulated box is emitted. -/
def mergeRedactions (l : List Rect) : List Rect :=
  if l.length < 2 then l
  else (l.enum.foldl (mergeStep l) (([] : List ℕ), ([] : List Rect))).2

/-! ### Spec-side definitions for claim C1

The claim defines adjacency as "when each is expanded by the fixed gap of 10
raster pixels on all sides, their boxes intersect" and asserts the result is
the set of bounding-box unions of the connected components of that graph.
These definitions follow the claim's words, for comparison with
`mergeRedactions`. -/

/-- Claimed adjacency: both boxes expanded by the gap intersect. -/
def specAdjacentB (a b : Rect) : Bool :=
  decide (a.x - gapPx ≤ b.x + b.width + gapPx) &&
  decide (b.x - gapPx ≤ a.x + a.width + gapPx) &&
  decide (a.y - gapPx ≤ b.y + b.height + gapPx) &&
  decide (b.y - gapPx ≤ a.y + a.height + gapPx)

/-- Connected components of the claimed adjacency graph, built incrementally:
each rectangle is united with every existing group it touches. -/
def specComponents (l : List Rect) : List (List Rect) :=
  l.foldl (fun groups r =>
    let touching := groups.filter (fun g => g.any (fun m => specAdjacentB m r))
    let rest := groups.filter (fun g => !(g.any (fun m => specAdjacentB m r)))
    (r :: touching.flatten) :: rest) []

/-- Bounding-box union of one component (components are nonempty by
construction; the empty case is a dummy). -/
def groupUnion : List Rect → Rect
  | [] => ⟨0, 0, 0, 0⟩
  | h :: t => t.foldl bboxUnion h

/-- The claimed result of merging: one bounding-box union per connected
component of the claimed gap-adjacency graph. -/
def specComponentUnions (l : List Rect) : List Rect :=
  (specComponents l).map groupUnion

/-- `m` contains `r` as a box (all four sides). -/
def rectContains (m r : Rect) : Prop :=
  m.x ≤ r.x ∧ m.y ≤ r.y ∧
  r.x + r.width ≤ m.x + m.width ∧ r.y + r.height ≤ m.y + m.height

instance (m r : Rect) : Decidable (rectContains m r) := by
  unfold rectContains; infer_instance

/-- Concrete rectangles exhibiting the failure of the component/merge
correspondence: `cexA` and `cexB` are adjacent, `cexC` is adjacent to neither
(under either adjacency notion), but `cexC` is within the gap of the
bounding-box union of `cexA` and `cexB`. -/
def cexA : Rect := ⟨0, 0, 100, 10⟩

/-- Second rectangle of the counterexample family. -/
def cexB : Rect := ⟨95, 15, 10, 10⟩

/-- Third rectangle of the counterexample family. -/
def cexC : Rect := ⟨0, 35, 10, 10⟩

/-! ### Basic facts about box containment and absorption -/

theorem rectContains_refl (r : Rect) : rectContains r r := by
  unfold rectContains; omega

theorem rectContains_trans {a b c : Rect} (h1 : rectContains a b)
    (h2 : rectContains b c) : rectContains a c := by
  unfold rectContains at *; omega

theorem bboxUnion_contains_left (a b : Rect) : rectContains (bboxUnion a b) a := by
  unfold rectContains bboxUnion
  dsimp
  omega

theorem bboxUnion_contains_right (a b : Rect) : rectContains (bboxUnion a b) b := by
  unfold rectContains bboxUnion
  dsimp
  omega

/-- Invariant of one pass of the inner merge loop (stated for an arbitrary
folded list `L`): the accumulated box only grows, the consumed set only grows,
and every newly consumed index corresponds to an entry of `L` contained in the
final accumulated box. -/
theorem foldAbsorb_inv (L : List (ℕ × Rect)) :
    ∀ (cur : Rect) (us : List ℕ) (dm : Bool),
      rectContains (L.foldl absorbStep (cur, us, dm)).1 cur ∧
      (∀ j ∈ us, j ∈ (L.foldl absorbStep (cur, us, dm)).2.1) ∧
      (∀ j ∈ (L.foldl absorbStep (cur, us, dm)).2.1, j ∈ us ∨
        ∃ p ∈ L, p.1 = j ∧ rectContains (L.foldl absorbStep (cur, us, dm)).1 p.2) := by
  induction L with
  | nil =>
    intro cur us dm
    exact ⟨rectContains_refl cur, fun j hj => hj, fun j hj => Or.inl hj⟩
  | cons q L ih =>
    intro cur us dm
    obtain ⟨j, other⟩ := q
    rw [List.foldl_cons]
    by_cases hju : j ∈ us
    · have hstep : absorbStep (cur, us, dm) (j, other) = (cur, us, dm) := by
        simp [absorbStep, hju]
      rw [hstep]
      obtain ⟨h1, h2, h3⟩ := ih cur us dm
      refine ⟨h1, h2, fun k hk => ?_⟩
      rcases h3 k hk with h | ⟨p, hp, hpk, hpc⟩
      · exact Or.inl h
      · exact Or.inr ⟨p, List.mem_cons_of_mem _ hp, hpk, hpc⟩
    · by_cases hadj : adjacentB cur other
      · have hstep : absorbStep (cur, us, dm) (j, other)
            = (bboxUnion cur other, j :: us, true) := by
          simp [absorbStep, hju, hadj]
        rw [hstep]
        obtain ⟨h1, h2, h3⟩ := ih (bboxUnion cur other) (j :: us) true
        refine ⟨rectContains_trans h1 (bboxUnion_contains_left cur other),
          fun k hk => h2 k (List.mem_cons_of_mem _ hk), fun k hk => ?_⟩
        rcases h3 k hk with h | ⟨p, hp, hpk, hpc⟩
        · rcases List.mem_cons.mp h with h | h
          · exact Or.inr ⟨(j, other), List.mem_cons_self _ _, h.symm ▸ rfl,
              rectContains_trans h1 (bboxUnion_contains_right cur other)⟩
          · exact Or.inl h
        · exact Or.inr ⟨p, List.mem_cons_of_mem _ hp, hpk, hpc⟩
      · have hstep : absorbStep (cur, us, dm) (j, other) = (cur, us, dm) := by
          simp [absorbStep, hju, hadj]
        rw [hstep]
        obtain ⟨h1, h2, h3⟩ := ih cur us dm
        refine ⟨h1, h2, fun k hk => ?_⟩
        rcases h3 k hk with h | ⟨p, hp, hpk, hpc⟩
        · exact Or.inl h
        · exact Or.inr ⟨p, List.mem_cons_of_mem _ hp, hpk, hpc⟩

/-- Same invariant for the full inner `while (didMerge)` loop. -/
theorem absorbLoop_inv (l : List Rect) :
    ∀ (fuel : ℕ) (cur : Rect) (us : List ℕ),
      rectContains (absorbLoop l fuel cur us).1 cur ∧
      (∀ j ∈ us, j ∈ (absorbLoop l fuel cur us).2) ∧
      (∀ j ∈ (absorbLoop l fuel cur us).2, j ∈ us ∨
        ∃ p ∈ l.enum, p.1 = j ∧ rectContains (absorbLoop l fuel cur us).1 p.2) := by
  intro fuel
  induction fuel with
  | zero =>
    intro cur us
    exact ⟨rectContains_refl cur, fun j hj => hj, fun j hj => Or.inl hj⟩
  | succ fuel ih =>
    intro cur us
    obtain ⟨h1, h2, h3⟩ := foldAbsorb_inv l.enum cur us false
    rcases hpass : absorbPass l (cur, us, false) with ⟨c, u, dm⟩
    have hfold : l.enum.foldl absorbStep (cur, us, false) = (c, u, dm) := hpass
    rw [hfold] at h1 h2 h3
    have hloop : absorbLoop l (fuel + 1) cur us
        = if dm then absorbLoop l fuel c u else (c, u) := by
      show (let res := absorbPass l (cur, us, false)
        if res.2.2 then absorbLoop l fuel res.1 res.2.1 else (res.1, res.2.1))
        = if dm then absorbLoop l fuel c u else (c, u)
      rw [hpass]
    by_cases hdm : dm
    · rw [hloop, if_pos hdm]
      obtain ⟨g1, g2, g3⟩ := ih c u
      refine ⟨rectContains_trans g1 h1, fun j hj => g2 j (h2 j hj), fun j hj => ?_⟩
      rcases g3 j hj with h | ⟨p, hp, hpk, hpc⟩
      · rcases h3 j h with h | ⟨p, hp, hpk, hpc⟩
        · exact Or.inl h
        · exact Or.inr ⟨p, hp, hpk, rectContains_trans g1 hpc⟩
      · exact Or.inr ⟨p, hp, hpk, hpc⟩
    · rw [hloop, if_neg hdm]
      exact ⟨h1, h2, h3⟩

/-- Entries of `enumFrom` are `get?` hits at the shifted index. -/
theorem enumFrom_mem_get? {α : Type} :
    ∀ (l : List α) (n : ℕ) (p : ℕ × α), p ∈ l.enumFrom n →
      n ≤ p.1 ∧ l.get? (p.1 - n) = some p.2 := by
  intro l
  induction l with
  | nil => intro n p hp; simp [List.enumFrom] at hp
  | cons a l ih =>
    intro n p hp
    rcases List.mem_cons.mp hp with h | h
    · subst h; simp
    · obtain ⟨h1, h2⟩ := ih (n + 1) p h
      refine ⟨by omega, ?_⟩
      have : p.1 - n = (p.1 - (n + 1)) + 1 := by omega
      rw [this]
      simpa using h2

/-- Conversely, every `get?` hit appears in `enumFrom`. -/
theorem get?_mem_enumFrom {α : Type} :
    ∀ (l : List α) (n k : ℕ) (x : α), l.get? k = some x →
      (n + k, x) ∈ l.enumFrom n := by
  intro l
  induction l with
  | nil => intro n k x h; simp at h
  | cons a l ih =>
    intro n k x h
    cases k with
    | zero =>
      simp at h
      simp [List.enumFrom, h]
    | succ k =>
      simp only [List.get?] at h
      have := ih (n + 1) k x h
      simp only [List.enumFrom]
      refine List.mem_cons_of_mem _ ?_
      have : n + (k + 1) = (n + 1) + k := by omega
      rw [this]
      exact ih (n + 1) k x h

theorem enum_mem_get? {α : Type} (l : List α) (p : ℕ × α) (hp : p ∈ l.enum) :
    l.get? p.1 = some p.2 := by
  have := (enumFrom_mem_get? l 0 p hp).2
  simpa using this

theorem get?_mem_enum {α : Type} (l : List α) (k : ℕ) (x : α)
    (h : l.get? k = some x) : (k, x) ∈ l.enum := by
  have := get?_mem_enumFrom l 0 k x h
  simpa using this

/-- Invariant of the outer merge loop: the consumed set grows, every processed
index ends up consumed, the output list only grows, and every consumed index
has its rectangle contained in some emitted box. -/
theorem mergeFold_inv (l : List Rect) :
    ∀ (L : List (ℕ × Rect)), (∀ p ∈ L, p ∈ l.enum) →
    ∀ (us : List ℕ) (merged : List Rect),
      (∀ j ∈ us, j ∈ (L.foldl (mergeStep l) (us, merged)).1) ∧
      (∀ p ∈ L, p.1 ∈ (L.foldl (mergeStep l) (us, merged)).1) ∧
      (∃ g, (L.foldl (mergeStep l) (us, merged)).2 = merged ++ g) ∧
      (∀ j ∈ (L.foldl (mergeStep l) (us, merged)).1, j ∈ us ∨
        ∃ p ∈ l.enum, p.1 = j ∧
          ∃ m ∈ (L.foldl (mergeStep l) (us, merged)).2, rectContains m p.2) := by
  intro L
  induction L with
  | nil =>
    intro _ us merged
    exact ⟨fun j hj => hj, fun p hp => absurd hp (List.not_mem_nil p),
      ⟨[], (List.append_nil merged).symm⟩, fun j hj => Or.inl hj⟩
  | cons q L ih =>
    intro hL us merged
    obtain ⟨i, r⟩ := q
    have hqenum : (i, r) ∈ l.enum := hL (i, r) (List.mem_cons_self _ _)
    have hLtail : ∀ p ∈ L, p ∈ l.enum := fun p hp => hL p (List.mem_cons_of_mem _ hp)
    rw [List.foldl_cons]
    by_cases hiu : i ∈ us
    · have hstep : mergeStep l (us, merged) (i, r) = (us, merged) := by
        simp [mergeStep, hiu]
      rw [hstep]
      obtain ⟨h1, h2, h3, h4⟩ := ih hLtail us merged
      refine ⟨h1, fun p hp => ?_, h3, h4⟩
      rcases List.mem_cons.mp hp with h | h
      · exact h ▸ h1 i hiu
      · exact h2 p h
    · have hstep : mergeStep l (us, merged) (i, r)
          = ((absorbLoop l (l.length + 1) r (i :: us)).2,
             merged ++ [(absorbLoop l (l.length + 1) r (i :: us)).1]) := by
        simp [mergeStep, hiu]
      rw [hstep]
      obtain ⟨a1, a2, a3⟩ := absorbLoop_inv l (l.length + 1) r (i :: us)
      obtain ⟨h1, h2, h3, h4⟩ :=
        ih hLtail (absorbLoop l (l.length + 1) r (i :: us)).2
          (merged ++ [(absorbLoop l (l.length + 1) r (i :: us)).1])
      obtain ⟨g, hg⟩ := h3
      have hcmem : (absorbLoop l (l.length + 1) r (i :: us)).1
          ∈ (L.foldl (mergeStep l)
              ((absorbLoop l (l.length + 1) r (i :: us)).2,
               merged ++ [(absorbLoop l (l.length + 1) r (i :: us)).1])).2 := by
        rw [hg]
        simp
      refine ⟨fun j hj => h1 j (a2 j (List.mem_cons_of_mem _ hj)), fun p hp => ?_,
        ⟨[(absorbLoop l (l.length + 1) r (i :: us)).1] ++ g, by rw [hg, List.append_assoc]⟩,
        fun j hj => ?_⟩
      · rcases List.mem_cons.mp hp with h | h
        · exact h ▸ h1 i (a2 i (List.mem_cons_self _ _))
        · exact h2 p h
      · rcases h4 j hj with h | ⟨p, hp, hpk, m, hm, hmc⟩
        · rcases a3 j h with h | ⟨p, hp, hpk, hpc⟩
          · rcases List.mem_cons.mp h with h | h
            · exact Or.inr ⟨(i, r), hqenum, h.symm, _, hcmem, a1⟩
            · exact Or.inl h
          · exact Or.inr ⟨p, hp, hpk, _, hcmem, hpc⟩
        · exact Or.inr ⟨p, hp, hpk, m, hm, hmc⟩

/-- The output of the outer merge loop grows by at most one box per input. -/
theorem mergeFold_len (l : List Rect) :
    ∀ (L : List (ℕ × Rect)) (us : List ℕ) (merged : List Rect),
      (L.foldl (mergeStep l) (us, merged)).2.length ≤ merged.length + L.length := by
  intro L
  induction L with
  | nil => intro us merged; simp
  | cons q L ih =>
    intro us merged
    obtain ⟨i, r⟩ := q
    rw [List.foldl_cons]
    by_cases hiu : i ∈ us
    · have hstep : mergeStep l (us, merged) (i, r) = (us, merged) := by
        simp [mergeStep, hiu]
      rw [hstep]
      calc (L.foldl (mergeStep l) (us, merged)).2.length
          ≤ merged.length + L.length := ih us merged
        _ ≤ merged.length + (L.length + 1) := by omega
    · have hstep : mergeStep l (us, merged) (i, r)
          = ((absorbLoop l (l.length + 1) r (i :: us)).2,
             merged ++ [(absorbLoop l (l.length + 1) r (i :: us)).1]) := by
        simp [mergeStep, hiu]
      rw [hstep]
      calc (L.foldl (mergeStep l) (_, merged ++ [_])).2.length
          ≤ (merged ++ [(absorbLoop l (l.length + 1) r (i :: us)).1]).length + L.length :=
            ih _ _
        _ ≤ merged.length + (L.length + 1) := by simp; omega

/-- C1 (amended): `mergeRedactions` covers every input rectangle — each input
box is contained in some output box — and never lengthens the list. -/
theorem mergeRedactions_covers_input (l : List Rect) :
    (∀ r ∈ l, ∃ m ∈ mergeRedactions l, rectContains m r) ∧
    (mergeRedactions l).length ≤ l.length := by
  by_cases hlen : l.length < 2
  · rw [mergeRedactions, if_pos hlen]
    exact ⟨fun r hr => ⟨r, hr, rectContains_refl r⟩, le_refl _⟩
  · rw [mergeRedactions, if_neg hlen]
    obtain ⟨h1, h2, h3, h4⟩ := mergeFold_inv l l.enum (fun p hp => hp) [] []
    constructor
    · intro r hr
      obtain ⟨⟨n, hn⟩, hget⟩ := List.mem_iff_get.mp hr
      have hmem : (n, r) ∈ l.enum := by
        apply get?_mem_enum
        rw [List.get?_eq_get hn, hget]
      have hn2 := h2 (n, r) hmem
      rcases h4 n hn2 with h | ⟨p, hp, hpk, m, hm, hmc⟩
      · exact absurd h (List.not_mem_nil n)
      · have hp2 : p.2 = r := by
          have e1 := enum_mem_get? l p hp
          have e2 := enum_mem_get? l (n, r) hmem
          rw [hpk] at e1
          rw [e2] at e1
          exact (Option.some_injective _ e1).symm
        exact ⟨m, hm, hp2 ▸ hmc⟩
    · have := mergeFold_len l l.enum [] []
      simpa using this

/-- C1 (amended) witness at a concrete input. -/
theorem mergeRedactions_covers_input_witness :
    ∃ m ∈ mergeRedactions [cexA, cexB, cexC], rectContains m cexA :=
  (mergeRedactions_covers_input [cexA, cexB, cexC]).1 cexA (by decide)

/-- C1 counterexample: on `[cexA, cexB, cexC]` the code merges all three
rectangles into one box although the claimed gap-adjacency graph has two
connected components (`cexC` is adjacent to neither `cexA` nor `cexB`, even
with both boxes expanded by the gap), and permuting the input changes the
result, so the output is neither the component unions nor order-independent. -/
theorem mergeRedactions_not_component_unions :
    (mergeRedactions [cexA, cexB, cexC]).length = 1 ∧
    (specComponentUnions [cexA, cexB, cexC]).length = 2 ∧
    (mergeRedactions [cexC, cexA, cexB]).length = 2 := by
  refine ⟨by decide, by decide, by decide⟩

/-- C2 counterexample: re-running the merger on its own output merges further
(the two boxes produced by `mergeRedactions [cexC, cexA, cexB]` are within the
gap of each other, because emitted boxes are never reconsidered), so the claim
`merge (merge X) = merge X` fails — the multisets have different sizes. -/
theorem mergeRedactions_not_idempotent :
    (mergeRedactions (mergeRedactions [cexC, cexA, cexB])).length = 1 ∧
    (mergeRedactions [cexC, cexA, cexB]).length = 2 := by
  refine ⟨by decide, by decide⟩

/-- No pair of distinct positions holds adjacent rectangles (the code's
absorption test fails in both orientations, which coincide since the test is
symmetric up to moving the gap across the inequality). -/
def pairwiseSeparated (l : List Rect) : Prop :=
  ∀ (a b : Fin l.length), a ≠ b → adjacentB (l.get a) (l.get b) = false

instance (l : List Rect) : Decidable (pairwiseSeparated l) := by
  unfold pairwiseSeparated; infer_instance

/-- A pass over rectangles none of which is adjacent to the accumulated box
changes nothing. -/
theorem foldAbsorb_id (L : List (ℕ × Rect)) :
    ∀ (cur : Rect) (us : List ℕ) (b : Bool),
      (∀ p ∈ L, p.1 ∉ us → adjacentB cur p.2 = false) →
      L.foldl absorbStep (cur, us, b) = (cur, us, b) := by
  induction L with
  | nil => intro cur us b _; rfl
  | cons q L ih =>
    intro cur us b h
    obtain ⟨j, other⟩ := q
    rw [List.foldl_cons]
    by_cases hju : j ∈ us
    · have hstep : absorbStep (cur, us, b) (j, other) = (cur, us, b) := by
        simp [absorbStep, hju]
      rw [hstep]
      exact ih cur us b (fun p hp => h p (List.mem_cons_of_mem _ hp))
    · have hadj : adjacentB cur other = false :=
        h (j, other) (List.mem_cons_self _ _) hju
      have hstep : absorbStep (cur, us, b) (j, other) = (cur, us, b) := by
        simp [absorbStep, hju, hadj]
      rw [hstep]
      exact ih cur us b (fun p hp => h p (List.mem_cons_of_mem _ hp))

/-- If the first pass absorbs nothing, the inner loop returns its input. -/
theorem absorbLoop_of_pass_id (l : List Rect) (fuel : ℕ) (cur : Rect) (us : List ℕ)
    (h : absorbPass l (cur, us, false) = (cur, us, false)) :
    absorbLoop l (fuel + 1) cur us = (cur, us) := by
  show (let res := absorbPass l (cur, us, false)
        if res.2.2 then absorbLoop l fuel res.1 res.2.1 else (res.1, res.2.1)) = (cur, us)
  rw [h]
  rfl

/-- On a pairwise-separated list the outer merge loop copies its input. -/
theorem mergeFold_id_aux (l : List Rect)
    (h : ∀ (a b : Fin l.length), a ≠ b → adjacentB (l.get a) (l.get b) = false) :
    ∀ (t : List Rect) (k : ℕ) (us : List ℕ) (merged : List Rect),
      l.drop k = t → (∀ j, j ∈ us ↔ j < k) →
      ((t.enumFrom k).foldl (mergeStep l) (us, merged)).2 = merged ++ t := by
  intro t
  induction t with
  | nil => intro k us merged _ _; simp [List.enumFrom]
  | cons a t ih =>
    intro k us merged hdrop hus
    have hk : k < l.length := by
      have := congrArg List.length hdrop
      rw [List.length_drop] at this
      simp at this
      omega
    have ha : l.get ⟨k, hk⟩ = a := by
      have := List.drop_eq_get_cons hk
      rw [hdrop] at this
      exact (List.cons.injEq _ _ _ _ ▸ this).1.symm
    have hkus : k ∉ us := by
      intro hmem
      exact absurd ((hus k).mp hmem) (lt_irrefl k)
    have hpass : absorbPass l (a, k :: us, false) = (a, k :: us, false) := by
      apply foldAbsorb_id
      intro p hp hpus
      obtain ⟨hplt, hpget⟩ := List.get?_eq_some.mp (enum_mem_get? l p hp)
      have hpk : p.1 ≠ k := fun e => hpus (e ▸ List.mem_cons_self _ _)
      have := h ⟨p.1, hplt⟩ ⟨k, hk⟩ (by simp [Fin.ext_iff]; omega)
      have hsym := h ⟨k, hk⟩ ⟨p.1, hplt⟩ (by simp [Fin.ext_iff]; omega)
      rw [ha] at hsym
      rw [← hpget]
      exact hsym
    have hloop : absorbLoop l (l.length + 1) a (k :: us) = (a, k :: us) :=
      absorbLoop_of_pass_id l l.length a (k :: us) hpass
    have hstep : mergeStep l (us, merged) (k, a) = (k :: us, merged ++ [a]) := by
      simp [mergeStep, hkus, hloop]
    have henum : (a :: t).enumFrom k = (k, a) :: t.enumFrom (k + 1) := rfl
    rw [henum, List.foldl_cons, hstep]
    have hdrop2 : l.drop (k + 1) = t := by
      have := List.tail_drop l k
      rw [hdrop] at this
      exact this.symm
    have hus2 : ∀ j, j ∈ (k :: us) ↔ j < k + 1 := by
      intro j
      rw [List.mem_cons, hus j]
      omega
    rw [ih (k + 1) (k :: us) (merged ++ [a]) hdrop2 hus2]
    simp

/-- `mergeRedactions` is the identity on pairwise-separated inputs. -/
theorem mergeRedactions_eq_self (l : List Rect) (h : pairwiseSeparated l) :
    mergeRedactions l = l := by
  by_cases hlen : l.length < 2
  · rw [mergeRedactions, if_pos hlen]
  · rw [mergeRedactions, if_neg hlen]
    have he : l.enum = l.enumFrom 0 := rfl
    have := mergeFold_id_aux l h l 0 [] [] (by simp) (by simp)
    rw [he]
    simpa using this

/-- C2 (amended): re-running `mergeRedactions` on its own output is a no-op
whenever no two output boxes are within the gap of each other; in general the
outer loop never reconsiders emitted boxes, so idempotence can fail (see the
counterexample). -/
theorem mergeRedactions_idempotent_of_separated (X : List Rect)
    (h : pairwiseSeparated (mergeRedactions X)) :
    mergeRedactions (mergeRedactions X) = mergeRedactions X :=
  mergeRedactions_eq_self (mergeRedactions X) h

/-- First rectangle of the separated pair used for the C2 witness. -/
def sepP : Rect := ⟨0, 0, 30, 30⟩

/-- Second rectangle of the separated pair used for the C2 witness. -/
def sepQ : Rect := ⟨100, 100, 30, 30⟩

/-- C2 (amended) witness at a concrete separated input. -/
theorem mergeRedactions_idempotent_of_separated_witness :
    mergeRedactions (mergeRedactions [sepP, sepQ]) = mergeRedactions [sepP, sepQ] :=
  mergeRedactions_idempotent_of_separated [sepP, sepQ] (by decide)

/-! ## Pixel buffer and `detectRedactions` (README lines 329-426) -/

/-- An `ImageData`: width, height and flat RGBA samples.  The JS code never
validates that `data.length = width * height * 4`; absent samples read as
`undefined`, which fails every `< blackThreshold` comparison. -/
structure Buffer where
  width : ℕ
  height : ℕ
  data : List ℕ

/-- `data[idx] < t` with JS semantics: an out-of-range read is `undefined`,
and `undefined < t` is `false`. -/
def chLt (b : Buffer) (idx t : ℕ) : Bool :=
  match b.data.get? idx with
  | some v => decide (v < t)
  | none => false

/-- `const blackThreshold = 30`. -/
def blackThreshold : ℕ := 30

/-- The `isBlack(x, y)` closure: in-bounds and all three colour channels
strictly below the threshold.  Coordinates are naturals, so the JS `x < 0`
branch is vacuous (every call site guards the decrement). -/
def isBlack (b : Buffer) (x y : ℕ) : Bool :=
  if x < b.width ∧ y < b.height then
    chLt b ((y * b.width + x) * 4) blackThreshold &&
    chLt b ((y * b.width + x) * 4 + 1) blackThreshold &&
    chLt b ((y * b.width + x) * 4 + 2) blackThreshold
  else false

/-- `while (minX > 0 && isBlack(minX - 1, y)) minX--`. -/
def expandLeft (b : Buffer) (y : ℕ) (minX : ℕ) : ℕ :=
  if h : 0 < minX ∧ isBlack b (minX - 1) y = true then expandLeft b y (minX - 1)
  else minX
termination_by minX
decreasing_by omega

/-- `while (maxX < width - 1 && isBlack(maxX + 1, y)) maxX++`. -/
def expandRight (b : Buffer) (y : ℕ) (maxX : ℕ) : ℕ :=
  if h : maxX < b.width - 1 ∧ isBlack b (maxX + 1) y = true then
    expandRight b y (maxX + 1)
  else maxX
termination_by b.width - maxX
decreasing_by omega

/-- Sample positions `minX, minX+3, ..., ≤ maxX` of the row-acceptance test. -/
def sample3 (minX maxX : ℕ) : List ℕ :=
  List.range' minX ((maxX - minX) / 3 + 1) 3

/-- A row is accepted during vertical expansion iff every third pixel of the
current horizontal span is black. -/
def rowBlack (b : Buffer) (minX maxX y : ℕ) : Bool :=
  (sample3 minX maxX).all (fun tx => isBlack b tx y)

/-- The `while (allBlackAbove && minY > 0)` loop: decrement while the row
above is all black (a rejected row is stepped back from, leaving `minY`). -/
def expandUp (b : Buffer) (minX maxX : ℕ) (minY : ℕ) : ℕ :=
  if h : 0 < minY ∧ rowBlack b minX maxX (minY - 1) = true then
    expandUp b minX maxX (minY - 1)
  else minY
termination_by minY
decreasing_by omega

/-- The `while (allBlackBelow && maxY < height - 1)` loop. -/
def expandDown (b : Buffer) (minX maxX : ℕ) (maxY : ℕ) : ℕ :=
  if h : maxY < b.height - 1 ∧ rowBlack b minX maxX (maxY + 1) = true then
    expandDown b minX maxX (maxY + 1)
  else maxY
termination_by b.height - maxY
decreasing_by omega

/-- The grid-aligned coordinates marked visited after a detection
(`for (vy = minY; vy <= maxY; vy += 5) for (vx = minX; ...)`). -/
def gridPoints (minX maxX minY maxY : ℕ) : List (ℕ × ℕ) :=
  (List.range' minY ((maxY - minY) / 5 + 1) 5).flatMap
    (fun vy => (List.range' minX ((maxX - minX) / 5 + 1) 5).map (fun vx => (vx, vy)))

/-- The seed coordinates of the outer scan loops
(`for (y = 0; y < height; y += 5) for (x = 0; x < width; x += 5)`). -/
def seedList (w h : ℕ) : List (ℕ × ℕ) :=
  (List.range' 0 ((h + 4) / 5) 5).flatMap
    (fun y => (List.range' 0 ((w + 4) / 5) 5).map (fun x => (x, y)))

/-- Density sample coordinates, stride 2 in both axes over the detected box. -/
def densitySamples (minX maxX minY maxY : ℕ) : List (ℕ × ℕ) :=
  (List.range' minY ((maxY - minY) / 2 + 1) 2).flatMap
    (fun vy => (List.range' minX ((maxX - minX) / 2 + 1) 2).map (fun vx => (vx, vy)))

/-- `blackPixelCount / totalPixels > 0.85` over the stride-2 samples. -/
def densityPasses (b : Buffer) (minX maxX minY maxY : ℕ) : Prop :=
  ((((densitySamples minX maxX minY maxY).filter
      (fun p => isBlack b p.1 p.2)).length : ℚ) /
    (((densitySamples minX maxX minY maxY).length : ℚ))) > 85 / 100

instance (b : Buffer) (minX maxX minY maxY : ℕ) :
    Decidable (densityPasses b minX maxX minY maxY) := by
  unfold densityPasses; infer_instance

/-- The body of the scan loop for one seed coordinate: skip visited or
non-black seeds; otherwise grow the box, mark its grid coordinates visited,
and emit it if it passes the minimum-size and density filters. -/
def seedStep (b : Buffer) (st : List (ℕ × ℕ) × List Rect) (p : ℕ × ℕ) :
    List (ℕ × ℕ) × List Rect :=
  if p ∈ st.1 then st
  else if isBlack b p.1 p.2 then
    let minX := expandLeft b p.2 p.1
    let maxX := expandRight b p.2 p.1
    let minY := expandUp b minX maxX p.2
    let maxY := expandDown b minX maxX p.2
    let visited := st.1 ++ gridPoints minX maxX minY maxY
    let rectWidth : ℤ := (maxX : ℤ) - (minX : ℤ)
    let rectHeight : ℤ := (maxY : ℤ) - (minY : ℤ)
    if 20 ≤ rectWidth ∧ 8 ≤ rectHeight then
      if densityPasses b minX maxX minY maxY then
        (visited, st.2 ++ [⟨(minX : ℤ), (minY : ℤ), rectWidth, rectHeight⟩])
      else (visited, st.2)
    else (visited, st.2)
  else st

/-- The candidate rectangles produced by the scan of `detectRedactions`,
before `mergeRedactions` is applied. -/
def scanCandidates (b : Buffer) : List Rect :=
  ((seedList b.width b.height).foldl (seedStep b) ([], [])).2

/-- `PDFProcessor.detectRedactions` (page number and document-space fields
omitted as before): scan, then merge. -/
def detectRedactions (b : Buffer) : List Rect :=
  mergeRedactions (scanCandidates b)

/-! ### Scan lemmas -/

/-- An in-bounds pixel whose samples lie beyond the end of the data array is
not black (JS `undefined < t` is false); no error is raised. -/
theorem isBlack_short_data (b : Buffer) (x y : ℕ) (hx : x < b.width)
    (hy : y < b.height) (hlen : b.data.length ≤ (y * b.width + x) * 4) :
    isBlack b x y = false := by
  unfold isBlack
  rw [if_pos ⟨hx, hy⟩]
  have h0 : chLt b ((y * b.width + x) * 4) blackThreshold = false := by
    unfold chLt
    rw [List.get?_eq_none.mpr hlen]
  rw [h0]
  simp

/-- A zero-dimension buffer produces no seed coordinates at all. -/
theorem seedList_zero (w h : ℕ) (hz : w = 0 ∨ h = 0) : seedList w h = [] := by
  unfold seedList
  rcases hz with hz | hz <;> subst hz <;> simp [List.range']

theorem expandLeft_zero (b : Buffer) (y : ℕ) : expandLeft b y 0 = 0 := by
  rw [expandLeft]
  simp

theorem expandUp_zero (b : Buffer) (minX maxX : ℕ) : expandUp b minX maxX 0 = 0 := by
  rw [expandUp]
  simp

/-- On an all-black buffer, horizontal right expansion reaches the last
column. -/
theorem expandRight_all (b : Buffer)
    (hall : ∀ x, x < b.width → ∀ y, y < b.height → isBlack b x y = true)
    (y : ℕ) (hy : y < b.height) :
    ∀ (k maxX : ℕ), maxX < b.width → b.width - 1 - maxX = k →
      expandRight b y maxX = b.width - 1 := by
  intro k
  induction k with
  | zero =>
    intro maxX hlt hk
    have hx : maxX = b.width - 1 := by omega
    rw [expandRight, dif_neg]
    · exact hx
    · exact fun hc => absurd hc.1 (by omega)
  | succ k ih =>
    intro maxX hlt hk
    have hcond : maxX < b.width - 1 := by omega
    have hblack : isBlack b (maxX + 1) y = true := hall (maxX + 1) (by omega) y hy
    rw [expandRight, dif_pos ⟨hcond, hblack⟩]
    exact ih (maxX + 1) (by omega) (by omega)

/-- On an all-black buffer every sampled row is accepted. -/
theorem rowBlack_all (b : Buffer)
    (hall : ∀ x, x < b.width → ∀ y, y < b.height → isBlack b x y = true)
    (minX maxX y : ℕ) (hmn : minX ≤ maxX) (hmx : maxX < b.width)
    (hy : y < b.height) : rowBlack b minX maxX y = true := by
  unfold rowBlack
  rw [List.all_eq_true]
  intro tx htx
  obtain ⟨i, hi, htx⟩ := List.mem_range'.mp htx
  subst htx
  apply hall _ ?_ y hy
  have h3 : i * 3 ≤ maxX - minX :=
    (Nat.le_div_iff_mul_le (by norm_num : 0 < 3)).mp (by omega)
  omega

/-- On an all-black buffer, vertical downward expansion reaches the last
row. -/
theorem expandDown_all (b : Buffer)
    (hall : ∀ x, x < b.width → ∀ y, y < b.height → isBlack b x y = true)
    (minX maxX : ℕ) (hmn : minX ≤ maxX) (hmx : maxX < b.width) :
    ∀ (k maxY : ℕ), maxY < b.height → b.height - 1 - maxY = k →
      expandDown b minX maxX maxY = b.height - 1 := by
  intro k
  induction k with
  | zero =>
    intro maxY hlt hk
    have hyv : maxY = b.height - 1 := by omega
    rw [expandDown, dif_neg]
    · exact hyv
    · exact fun hc => absurd hc.1 (by omega)
  | succ k ih =>
    intro maxY hlt hk
    have hcond : maxY < b.height - 1 := by omega
    have hrow : rowBlack b minX maxX (maxY + 1) = true :=
      rowBlack_all b hall minX maxX (maxY + 1) hmn hmx (by omega)
    rw [expandDown, dif_pos ⟨hcond, hrow⟩]
    exact ih (maxY + 1) (by omega) (by omega)

/-- On an all-black buffer the density test passes (all samples are black,
and there is at least one sample). -/
theorem densityPasses_all_black (b : Buffer)
    (hall : ∀ x, x < b.width → ∀ y, y < b.height → isBlack b x y = true)
    (minX maxX minY maxY : ℕ) (hmnx : minX ≤ maxX) (hmny : minY ≤ maxY)
    (hmx : maxX < b.width) (hmy : maxY < b.height) :
    densityPasses b minX maxX minY maxY := by
  unfold densityPasses
  have hfil : (densitySamples minX maxX minY maxY).filter
      (fun p => isBlack b p.1 p.2) = densitySamples minX maxX minY maxY := by
    rw [List.filter_eq_self]
    intro p hp
    obtain ⟨vy, hvy, hp2⟩ := List.mem_flatMap.mp hp
    obtain ⟨vx, hvx, hpe⟩ := List.mem_map.mp hp2
    subst hpe
    obtain ⟨i, hi, hvxe⟩ := List.mem_range'.mp hvx
    obtain ⟨j, hj, hvye⟩ := List.mem_range'.mp hvy
    subst hvxe
    subst hvye
    have h2x : i * 2 ≤ maxX - minX :=
      (Nat.le_div_iff_mul_le (by norm_num : 0 < 2)).mp (by omega)
    have h2y : j * 2 ≤ maxY - minY :=
      (Nat.le_div_iff_mul_le (by norm_num : 0 < 2)).mp (by omega)
    exact hall _ (by omega) _ (by omega)
  rw [hfil]
  have hmem : (minX, minY) ∈ densitySamples minX maxX minY maxY := by
    apply List.mem_flatMap.mpr
    refine ⟨minY, List.mem_range'.mpr ⟨0, by omega, by omega⟩,
      List.mem_map.mpr ⟨minX, List.mem_range'.mpr ⟨0, by omega, by omega⟩, rfl⟩⟩
  have hpos : 0 < (densitySamples minX maxX minY maxY).length :=
    List.length_pos_of_mem hmem
  rw [div_self (by exact_mod_cast Nat.pos_iff_ne_zero.mp hpos)]
  norm_num

/-- One scan step only ever appends rectangles that passed the size and
density guards. -/
theorem seedStep_preserves (b : Buffer) (P : Rect → Prop)
    (hP : ∀ minX maxX minY maxY : ℕ,
      20 ≤ (maxX : ℤ) - (minX : ℤ) → 8 ≤ (maxY : ℤ) - (minY : ℤ) →
      densityPasses b minX maxX minY maxY →
      P ⟨(minX : ℤ), (minY : ℤ), (maxX : ℤ) - (minX : ℤ), (maxY : ℤ) - (minY : ℤ)⟩)
    (st : List (ℕ × ℕ) × List Rect) (p : ℕ × ℕ) (h : ∀ r ∈ st.2, P r) :
    ∀ r ∈ (seedStep b st p).2, P r := by
  simp only [seedStep]
  split_ifs with h1 h2 h3 h4
  · exact h
  · intro r hr
    rcases List.mem_append.mp hr with hr | hr
    · exact h r hr
    · rw [List.mem_singleton.mp hr]
      exact hP _ _ _ _ h3.1 h3.2 h4
  · exact h
  · exact h
  · exact h

/-- Guard preservation lifted over the whole seed fold. -/
theorem seedFold_inv (b : Buffer) (P : Rect → Prop)
    (hP : ∀ minX maxX minY maxY : ℕ,
      20 ≤ (maxX : ℤ) - (minX : ℤ) → 8 ≤ (maxY : ℤ) - (minY : ℤ) →
      densityPasses b minX maxX minY maxY →
      P ⟨(minX : ℤ), (minY : ℤ), (maxX : ℤ) - (minX : ℤ), (maxY : ℤ) - (minY : ℤ)⟩) :
    ∀ (S : List (ℕ × ℕ)) (st : List (ℕ × ℕ) × List Rect),
      (∀ r ∈ st.2, P r) → ∀ r ∈ (S.foldl (seedStep b) st).2, P r := by
  intro S
  induction S with
  | nil => intro st h; exact h
  | cons p S ih =>
    intro st h
    rw [List.foldl_cons]
    exact ih _ (seedStep_preserves b P hP st p h)

/-- A fold over seeds that are all already visited changes nothing. -/
theorem seedFold_skip (b : Buffer) :
    ∀ (S : List (ℕ × ℕ)) (st : List (ℕ × ℕ) × List Rect),
      (∀ p ∈ S, p ∈ st.1) → S.foldl (seedStep b) st = st := by
  intro S
  induction S with
  | nil => intro st _; rfl
  | cons p S ih =>
    intro st h
    rw [List.foldl_cons]
    have hstep : seedStep b st p = st := by
      unfold seedStep
      rw [if_pos (h p (List.mem_cons_self _ _))]
    rw [hstep]
    exact ih st (fun q hq => h q (List.mem_cons_of_mem _ hq))

/-- Every seed coordinate is a grid-aligned in-bounds point. -/
theorem seedList_shape (w h : ℕ) :
    ∀ p ∈ seedList w h, ∃ i j : ℕ, p = (5 * i, 5 * j) ∧ 5 * i < w ∧ 5 * j < h := by
  intro p hp
  obtain ⟨y, hy, hp2⟩ := List.mem_flatMap.mp hp
  obtain ⟨x, hx, hpe⟩ := List.mem_map.mp hp2
  subst hpe
  obtain ⟨i, hi, hxe⟩ := List.mem_range'.mp hx
  obtain ⟨j, hj, hye⟩ := List.mem_range'.mp hy
  subst hxe
  subst hye
  have hxi : (i + 1) * 5 ≤ w + 4 :=
    (Nat.le_div_iff_mul_le (by norm_num : 0 < 5)).mp (by omega)
  have hyj : (j + 1) * 5 ≤ h + 4 :=
    (Nat.le_div_iff_mul_le (by norm_num : 0 < 5)).mp (by omega)
  exact ⟨i, j, by simp [Prod.ext_iff], by omega, by omega⟩

/-- Grid membership for the visited set of a box anchored at the origin. -/
theorem gridPoints_zero_mem (maxX maxY i j : ℕ) (hx : 5 * i ≤ maxX)
    (hy : 5 * j ≤ maxY) : (5 * i, 5 * j) ∈ gridPoints 0 maxX 0 maxY := by
  apply List.mem_flatMap.mpr
  have hjmem : 5 * j ∈ List.range' 0 ((maxY - 0) / 5 + 1) 5 := by
    apply List.mem_range'.mpr
    refine ⟨j, ?_, by omega⟩
    have := (Nat.le_div_iff_mul_le (by norm_num : 0 < 5)).mpr (by omega : j * 5 ≤ maxY - 0)
    omega
  have himem : 5 * i ∈ List.range' 0 ((maxX - 0) / 5 + 1) 5 := by
    apply List.mem_range'.mpr
    refine ⟨i, ?_, by omega⟩
    have := (Nat.le_div_iff_mul_le (by norm_num : 0 < 5)).mpr (by omega : i * 5 ≤ maxX - 0)
    omega
  exact ⟨5 * j, hjmem, List.mem_map.mpr ⟨5 * i, himem, rfl⟩⟩

/-- On an all-black buffer of size at least 21 by 9, the first seed grows to
the full buffer box, which passes both filters. -/
theorem seedStep_all_black (b : Buffer)
    (hall : ∀ x, x < b.width → ∀ y, y < b.height → isBlack b x y = true)
    (hw : 21 ≤ b.width) (hh : 9 ≤ b.height) :
    seedStep b ([], []) (0, 0) =
      (gridPoints 0 (b.width - 1) 0 (b.height - 1),
       [⟨0, 0, (b.width : ℤ) - 1, (b.height : ℤ) - 1⟩]) := by
  have hb00 : isBlack b 0 0 = true := hall 0 (by omega) 0 (by omega)
  have hel : expandLeft b 0 0 = 0 := expandLeft_zero b 0
  have her : expandRight b 0 0 = b.width - 1 :=
    expandRight_all b hall 0 (by omega) (b.width - 1) 0 (by omega) (by omega)
  have heu : expandUp b 0 (b.width - 1) 0 = 0 := expandUp_zero b 0 (b.width - 1)
  have hed : expandDown b 0 (b.width - 1) 0 = b.height - 1 :=
    expandDown_all b hall 0 (b.width - 1) (by omega) (by omega)
      (b.height - 1) 0 (by omega) (by omega)
  have hden : densityPasses b 0 (b.width - 1) 0 (b.height - 1) :=
    densityPasses_all_black b hall 0 (b.width - 1) 0 (b.height - 1)
      (by omega) (by omega) (by omega) (by omega)
  simp only [seedStep, hb00, hel, her, heu, hed]
  rw [if_neg (List.not_mem_nil _), if_pos trivial,
    if_pos (show (20:ℤ) ≤ ((b.width - 1 : ℕ) : ℤ) - ((0:ℕ) : ℤ) ∧
      (8:ℤ) ≤ ((b.height - 1 : ℕ) : ℤ) - ((0:ℕ) : ℤ) by constructor <;> omega),
    if_pos hden]
  simp only [List.nil_append, Prod.ext_iff, List.cons.injEq, Rect.mk.injEq,
    and_true, true_and]
  refine ⟨rfl, ?_⟩
  omega

/-- On an all-black buffer of size at least 21 by 9 the scan emits exactly the
full-buffer box: the first seed detects it and marks every other seed
visited. -/
theorem scanCandidates_all_black (b : Buffer)
    (hall : ∀ x, x < b.width → ∀ y, y < b.height → isBlack b x y = true)
    (hw : 21 ≤ b.width) (hh : 9 ≤ b.height) :
    scanCandidates b = [⟨0, 0, (b.width : ℤ) - 1, (b.height : ℤ) - 1⟩] := by
  obtain ⟨ny, hny⟩ : ∃ ny, (b.height + 4) / 5 = ny + 1 :=
    ⟨(b.height + 4) / 5 - 1, by omega⟩
  obtain ⟨nx, hnx⟩ : ∃ nx, (b.width + 4) / 5 = nx + 1 :=
    ⟨(b.width + 4) / 5 - 1, by omega⟩
  have hrest : seedList b.width b.height = (0, 0) ::
      ((List.range' 5 nx 5).map (fun x => (x, 0)) ++
        (List.range' 5 ny 5).flatMap
          (fun y => (List.range' 0 (nx + 1) 5).map (fun x => (x, y)))) := by
    unfold seedList
    rw [hny, hnx]
    rfl
  unfold scanCandidates
  rw [hrest, List.foldl_cons, seedStep_all_black b hall hw hh, seedFold_skip]
  intro p hp
  have hpseed : p ∈ seedList b.width b.height := by
    rw [hrest]
    exact List.mem_cons_of_mem _ hp
  obtain ⟨i, j, hpe, hxi, hyj⟩ := seedList_shape _ _ p hpseed
  subst hpe
  show (5 * i, 5 * j) ∈ gridPoints 0 (b.width - 1) 0 (b.height - 1)
  exact gridPoints_zero_mem _ _ i j (by omega) (by omega)

/-- On a buffer without black pixels the scan emits nothing. -/
theorem scanCandidates_all_white (b : Buffer)
    (hall : ∀ x, x < b.width → ∀ y, y < b.height → isBlack b x y = false) :
    scanCandidates b = [] := by
  have hall2 : ∀ x y, isBlack b x y = false := by
    intro x y
    by_cases hx : x < b.width ∧ y < b.height
    · exact hall x hx.1 y hx.2
    · unfold isBlack
      rw [if_neg hx]
  unfold scanCandidates
  have hconst : ∀ (S : List (ℕ × ℕ)) (st : List (ℕ × ℕ) × List Rect),
      S.foldl (seedStep b) st = st := by
    intro S
    induction S with
    | nil => intro st; rfl
    | cons p S ih =>
      intro st
      rw [List.foldl_cons]
      have hstep : seedStep b st p = st := by
        unfold seedStep
        by_cases hv : p ∈ st.1
        · rw [if_pos hv]
        · rw [if_neg hv, hall2 p.1 p.2]
          simp
      rw [hstep]
      exact ih st
  rw [hconst]

/-- C4 (amended): the code performs no buffer validation.  A zero-dimension
buffer yields an empty redaction list rather than an error, and when the
sample data is too short for an in-bounds pixel the missing samples read as
non-black; analysis of a page is a pure function of that page's buffer, so
other pages are unaffected. -/
theorem detectRedactions_invalid_buffer (b : Buffer) :
    (b.width = 0 ∨ b.height = 0 → detectRedactions b = []) ∧
    (∀ x y : ℕ, x < b.width → y < b.height →
      b.data.length ≤ (y * b.width + x) * 4 → isBlack b x y = false) := by
  constructor
  · intro hz
    unfold detectRedactions scanCandidates
    rw [seedList_zero b.width b.height hz]
    rfl
  · exact isBlack_short_data b

/-- C4 counterexample: the claim asserts analysis of an invalid buffer fails
with an `InvalidBuffer` error, but `detectRedactions` has no validation path —
a zero-dimension buffer and a buffer whose data length (0) does not match
`width * height * 4 = 100` both return a normal, empty result. -/
theorem detectRedactions_no_invalid_buffer_error :
    detectRedactions ⟨0, 0, []⟩ = [] ∧ detectRedactions ⟨5, 5, []⟩ = [] := by
  constructor
  · decide
  · decide

/-- C4 (amended) witness at concrete invalid buffers. -/
theorem detectRedactions_invalid_buffer_witness :
    detectRedactions ⟨0, 7, List.replicate 12 0⟩ = [] ∧
    isBlack ⟨3, 3, []⟩ 1 2 = false :=
  ⟨(detectRedactions_invalid_buffer ⟨0, 7, List.replicate 12 0⟩).1 (Or.inl rfl),
   (detectRedactions_invalid_buffer ⟨3, 3, []⟩).2 1 2 (by decide) (by decide)
     (by decide)⟩

/-- C5: every rectangle emitted by the scan, before merging, has
`width ≥ 20`, `height ≥ 8`, and stride-2 sampled black density strictly
above 0.85 (a box with density at most 0.85 is rejected). -/
theorem scanCandidates_size_density (b : Buffer) :
    ∀ r ∈ scanCandidates b,
      20 ≤ r.width ∧ 8 ≤ r.height ∧
      densityPasses b r.x.toNat (r.x + r.width).toNat
        r.y.toNat (r.y + r.height).toNat := by
  have hP : ∀ minX maxX minY maxY : ℕ,
      20 ≤ (maxX : ℤ) - (minX : ℤ) → 8 ≤ (maxY : ℤ) - (minY : ℤ) →
      densityPasses b minX maxX minY maxY →
      20 ≤ ((⟨(minX : ℤ), (minY : ℤ), (maxX : ℤ) - (minX : ℤ),
          (maxY : ℤ) - (minY : ℤ)⟩ : Rect)).width ∧
      8 ≤ ((⟨(minX : ℤ), (minY : ℤ), (maxX : ℤ) - (minX : ℤ),
          (maxY : ℤ) - (minY : ℤ)⟩ : Rect)).height ∧
      densityPasses b
        ((⟨(minX : ℤ), (minY : ℤ), (maxX : ℤ) - (minX : ℤ),
          (maxY : ℤ) - (minY : ℤ)⟩ : Rect)).x.toNat
        (((⟨(minX : ℤ), (minY : ℤ), (maxX : ℤ) - (minX : ℤ),
          (maxY : ℤ) - (minY : ℤ)⟩ : Rect)).x +
         ((⟨(minX : ℤ), (minY : ℤ), (maxX : ℤ) - (minX : ℤ),
          (maxY : ℤ) - (minY : ℤ)⟩ : Rect)).width).toNat
        ((⟨(minX : ℤ), (minY : ℤ), (maxX : ℤ) - (minX : ℤ),
          (maxY : ℤ) - (minY : ℤ)⟩ : Rect)).y.toNat
        (((⟨(minX : ℤ), (minY : ℤ), (maxX : ℤ) - (minX : ℤ),
          (maxY : ℤ) - (minY : ℤ)⟩ : Rect)).y +
         ((⟨(minX : ℤ), (minY : ℤ), (maxX : ℤ) - (minX : ℤ),
          (maxY : ℤ) - (minY : ℤ)⟩ : Rect)).height).toNat := ?_
  case _ =>
    exact seedFold_inv b
      (fun r => 20 ≤ r.width ∧ 8 ≤ r.height ∧
        densityPasses b r.x.toNat (r.x + r.width).toNat
          r.y.toNat (r.y + r.height).toNat) hP
      (seedList b.width b.height) ([], [])
      (fun r hr => absurd hr (List.not_mem_nil r))
  intro minX maxX minY maxY hwd hht hd
  refine ⟨hwd, hht, ?_⟩
  have e1 : ((minX : ℤ)).toNat = minX := Int.toNat_natCast minX
  have e2 : ((minX : ℤ) + ((maxX : ℤ) - (minX : ℤ))).toNat = maxX := by
    have he : (minX : ℤ) + ((maxX : ℤ) - (minX : ℤ)) = (maxX : ℤ) := by ring
    rw [he, Int.toNat_natCast]
  have e3 : ((minY : ℤ)).toNat = minY := Int.toNat_natCast minY
  have e4 : ((minY : ℤ) + ((maxY : ℤ) - (minY : ℤ))).toNat = maxY := by
    have he : (minY : ℤ) + ((maxY : ℤ) - (minY : ℤ)) = (maxY : ℤ) := by ring
    rw [he, Int.toNat_natCast]
  show densityPasses b ((minX : ℤ)).toNat ((minX : ℤ) + ((maxX : ℤ) - (minX : ℤ))).toNat
    ((minY : ℤ)).toNat ((minY : ℤ) + ((maxY : ℤ) - (minY : ℤ))).toNat
  rw [e1, e2, e3, e4]
  exact hd

/-- A small buffer with no black pixel (all channels 255). -/
def bufWhite : Buffer := ⟨2, 2, List.replicate 16 255⟩

/-- A completely black 21-by-9 buffer, the smallest size whose full-buffer box
passes the minimum-size filter. -/
def bufBlack : Buffer := ⟨21, 9, List.replicate (21 * 9 * 4) 0⟩

set_option maxRecDepth 100000 in
/-- Every in-bounds pixel of `bufBlack` is black. -/
theorem bufBlack_all_black : ∀ x, x < bufBlack.width → ∀ y, y < bufBlack.height →
    isBlack bufBlack x y = true := by decide

/-- No pixel of `bufWhite` is black. -/
theorem bufWhite_all_white : ∀ x, x < bufWhite.width → ∀ y, y < bufWhite.height →
    isBlack bufWhite x y = false := by decide

/-- C5 witness: the box scanned out of `bufBlack` satisfies the filters. -/
theorem scanCandidates_size_density_witness :
    20 ≤ (Rect.mk 0 0 20 8).width ∧ 8 ≤ (Rect.mk 0 0 20 8).height ∧
    densityPasses bufBlack 0 20 0 8 := by
  have hm : Rect.mk 0 0 20 8 ∈ scanCandidates bufBlack := by
    rw [scanCandidates_all_black bufBlack bufBlack_all_black (by decide) (by decide)]
    decide
  exact scanCandidates_size_density bufBlack (Rect.mk 0 0 20 8) hm

/-- C9: a buffer with no black pixels yields an empty redaction list (not an
error), and a completely black buffer large enough to pass the size filter
yields exactly one region spanning the buffer, bounded by its edges. -/
theorem detectRedactions_uniform_buffers (b : Buffer) :
    ((∀ x, x < b.width → ∀ y, y < b.height → isBlack b x y = false) →
      detectRedactions b = []) ∧
    ((∀ x, x < b.width → ∀ y, y < b.height → isBlack b x y = true) →
      21 ≤ b.width → 9 ≤ b.height →
      detectRedactions b = [⟨0, 0, (b.width : ℤ) - 1, (b.height : ℤ) - 1⟩]) := by
  constructor
  · intro hall
    unfold detectRedactions
    rw [scanCandidates_all_white b hall]
    rfl
  · intro hall hw hh
    unfold detectRedactions
    rw [scanCandidates_all_black b hall hw hh]
    rfl

/-- C9 witness at the concrete uniform buffers. -/
theorem detectRedactions_uniform_buffers_witness :
    detectRedactions bufWhite = [] ∧
    detectRedactions bufBlack = [⟨0, 0, 20, 8⟩] := by
  constructor
  · exact (detectRedactions_uniform_buffers bufWhite).1 bufWhite_all_white
  · have h := (detectRedactions_uniform_buffers bufBlack).2 bufBlack_all_black
      (by decide) (by decide)
    rw [h]
    decide

/-! ## Text association: `findTextInArea` (README lines 204-287),
`renderTextForExport` (README lines 577-629) and the display overlay
(`renderTextLayerForRedactions`, app.js lines 524-602, which applies the same
test as the export path). -/

/-- Is `c` one of the whitespace characters relevant to the fragments at
hand?  Models the JS `String.prototype.trim` character class restricted to
ASCII whitespace. -/
def isJsSpace (c : Char) : Bool :=
  c = ' ' ∨ c = '\t' ∨ c = '\n' ∨ c = '\r'

/-- JS `str.trim()`: strip whitespace from both ends. -/
def jsTrim (s : String) : String :=
  ⟨((s.data.dropWhile isJsSpace).reverse.dropWhile isJsSpace).reverse⟩

/-- A PDF.js text item as consumed by the associator: content string, the
used entries of its `transform` (`[0]` scale giving the font size, `[4]`/`[5]`
translation), and its optional width (JS `undefined` is `none`). -/
structure TextItem where
  str : String
  t0 : ℚ
  t4 : ℚ
  t5 : ℚ
  width : Option ℚ
deriving DecidableEq, Repr

/-- The used entries of `viewport.transform`
(`[scaleX, skewX, skewY, scaleY, translateX, translateY]`; the code reads
indices 0, 3, 4, 5). -/
structure Viewport where
  v0 : ℚ
  v3 : ℚ
  v4 : ℚ
  v5 : ℚ
deriving DecidableEq, Repr

/-- An entry of a region's `hiddenText`, as pushed by `findTextInArea`
(the `transform` and `fontName` pass-through fields are omitted). -/
structure Found where
  text : String
  x : ℚ
  y : ℚ
  width : ℚ
  height : ℚ
  fontSize : ℚ
  index : ℕ
deriving DecidableEq, Repr

/-- `!item.str || item.str.trim() === ''` or the obstruction sentinel
`'1111'`: the fragment is skipped. -/
def skipItem (it : TextItem) : Prop :=
  it.str = "" ∨ jsTrim it.str = "" ∨ jsTrim it.str = "1111"

instance (it : TextItem) : Decidable (skipItem it) := by
  unfold skipItem; infer_instance

/-- `Math.abs(transform[0]) || 12`. -/
def fontSizeOf (it : TextItem) : ℚ :=
  if |it.t0| = 0 then 12 else |it.t0|

/-- `item.width || (item.str.length * fontSize * 0.6)` (JS `||`: the fallback
also applies to an explicit width of 0). -/
def itemWidthOf (it : TextItem) : ℚ :=
  match it.width with
  | some w => if w = 0 then (it.str.length : ℚ) * fontSizeOf it * (3 / 5) else w
  | none => (it.str.length : ℚ) * fontSizeOf it * (3 / 5)

/-- `canvasX = vt[0] * pdfX + vt[4]`. -/
def canvasXOf (vp : Viewport) (it : TextItem) : ℚ := vp.v0 * it.t4 + vp.v4

/-- `canvasY = vt[3] * pdfY + vt[5]`. -/
def canvasYOf (vp : Viewport) (it : TextItem) : ℚ := vp.v3 * it.t5 + vp.v5

/-- `scaledWidth = itemWidth * this.scale`. -/
def scaledWidthOf (scale : ℚ) (it : TextItem) : ℚ := itemWidthOf it * scale

/-- `scaledHeight = fontSize * this.scale`. -/
def scaledHeightOf (scale : ℚ) (it : TextItem) : ℚ := fontSizeOf it * scale

/-- `overlapWidth = max(0, min(textRight, redactRight) - max(textLeft,
redactLeft))`, the horizontal intersection of the fragment box and the
region box. -/
def overlapWidthOf (scale : ℚ) (vp : Viewport) (red : Rect) (it : TextItem) : ℚ :=
  max 0 (min (canvasXOf vp it + scaledWidthOf scale it)
             ((red.x : ℚ) + (red.width : ℚ)) -
         max (canvasXOf vp it) (red.x : ℚ))

/-- Vertical intersection height; the fragment box spans
`[canvasY - scaledHeight, canvasY]` (text origin is a baseline). -/
def overlapHeightOf (scale : ℚ) (vp : Viewport) (red : Rect) (it : TextItem) : ℚ :=
  max 0 (min (canvasYOf vp it) ((red.y : ℚ) + (red.height : ℚ)) -
         max (canvasYOf vp it - scaledHeightOf scale it) (red.y : ℚ))

/-- `textCenterY = (textTop + textBottom) / 2`. -/
def textCenterYOf (scale : ℚ) (vp : Viewport) (it : TextItem) : ℚ :=
  ((canvasYOf vp it - scaledHeightOf scale it) + canvasYOf vp it) / 2

/-- The acceptance test of `findTextInArea`:
`horizontalOverlapRatio >= 0.5 && verticalInside && overlapHeight > 0`. -/
def geomAccept (scale : ℚ) (vp : Viewport) (red : Rect) (it : TextItem) : Prop :=
  overlapWidthOf scale vp red it / scaledWidthOf scale it ≥ 1 / 2 ∧
  (textCenterYOf scale vp it ≥ (red.y : ℚ) ∧
   textCenterYOf scale vp it ≤ (red.y : ℚ) + (red.height : ℚ)) ∧
  overlapHeightOf scale vp red it > 0

instance (scale : ℚ) (vp : Viewport) (red : Rect) (it : TextItem) :
    Decidable (geomAccept scale vp red it) := by
  unfold geomAccept; infer_instance

/-- The record pushed onto `foundText` on assignment. -/
def mkFound (scale : ℚ) (vp : Viewport) (i : ℕ) (it : TextItem) : Found :=
  ⟨it.str, canvasXOf vp it, canvasYOf vp it, scaledWidthOf scale it,
   scaledHeightOf scale it, fontSizeOf it * scale, i⟩

/-- One iteration of the `for (let i = 0; ...)` loop of `findTextInArea`:
skip already-assigned indices and empty/sentinel fragments, then assign iff
the geometric test passes, recording the index in the page-wide set. -/
def assocStep (scale : ℚ) (vp : Viewport) (red : Rect)
    (st : List Found × List ℕ) (p : ℕ × TextItem) : List Found × List ℕ :=
  if p.1 ∈ st.2 then st
  else if skipItem p.2 then st
  else if geomAccept scale vp red p.2 then
    (st.1 ++ [mkFound scale vp p.1 p.2], p.1 :: st.2)
  else st

/-- The sort comparator
`(a, b) => Math.abs(a.y - b.y) < 5 ? a.x - b.x : a.y - b.y`, as the relation
"the comparator is nonpositive". -/
def foundLE (a b : Found) : Prop :=
  (if |a.y - b.y| < 5 then a.x - b.x else a.y - b.y) ≤ 0

instance : DecidableRel foundLE := fun a b => by
  unfold foundLE; infer_instance

/-- The final `foundText.sort(...)`, modelled as a stable insertion sort with
the source comparator. -/
def sortFound (l : List Found) : List Found := l.insertionSort foundLE

/-- `PDFProcessor.findTextInArea`: fold the skip/assign step over the indexed
fragment list, then sort the assigned fragments; also returns the updated
page-wide assigned-index set. -/
def findTextInArea (scale : ℚ) (vp : Viewport) (items : List TextItem)
    (red : Rect) (assigned : List ℕ) : List Found × List ℕ :=
  (sortFound (items.enum.foldl (assocStep scale vp red) ([], assigned)).1,
   (items.enum.foldl (assocStep scale vp red) ([], assigned)).2)

/-- One iteration of the `for (const redaction of pageRedactions)` loop of
`processPage`, threading the shared `assignedTextIndices` set. -/
def associateStep (scale : ℚ) (vp : Viewport) (items : List TextItem)
    (st : List (List Found) × List ℕ) (red : Rect) : List (List Found) × List ℕ :=
  (st.1 ++ [(findTextInArea scale vp items red st.2).1],
   (findTextInArea scale vp items red st.2).2)

/-- The per-page association loop of `processPage`: each region's
`hiddenText` in order, starting from an empty assigned set. -/
def associateAll (scale : ℚ) (vp : Viewport) (items : List TextItem)
    (reds : List Rect) : List (List Found) × List ℕ :=
  reds.foldl (associateStep scale vp items) ([], [])

/-- The per-region test of `renderTextForExport` (and of the display
overlay `renderTextLayerForRedactions` in app.js, which is identical):
`horizontalOverlap > textWidth * 0.3 && verticalInside` — a strict 0.3
threshold, no vertical-intersection requirement, and no assigned-set check. -/
def exportHit (scale : ℚ) (vp : Viewport) (red : Rect) (it : TextItem) : Prop :=
  overlapWidthOf scale vp red it > scaledWidthOf scale it * (3 / 10) ∧
  (textCenterYOf scale vp it ≥ (red.y : ℚ) ∧
   textCenterYOf scale vp it ≤ (red.y : ℚ) + (red.height : ℚ))

instance (scale : ℚ) (vp : Viewport) (red : Rect) (it : TextItem) :
    Decidable (exportHit scale vp red it) := by
  unfold exportHit; infer_instance

/-- `PDFProcessor.renderTextForExport`, reduced to its decision: the set of
fragments it draws — every non-empty, non-sentinel fragment that hits some
region of the raw region list under the 0.3 test. -/
def renderTextForExport (scale : ℚ) (vp : Viewport) (items : List TextItem)
    (reds : List Rect) : List TextItem :=
  items.filter (fun it =>
    !(decide (skipItem it)) && decide (∃ red ∈ reds, exportHit scale vp red it))

/-! ### Concrete association scenarios -/

/-- Identity-like viewport (unit scale, no translation). -/
def vpId : Viewport := ⟨1, 1, 0, 0⟩

/-- Region used by the single-fragment scenarios. -/
def redC10 : Rect := ⟨0, 0, 100, 30⟩

/-- A fragment fully inside `redC10` (box 10..60 horizontally, baseline 20). -/
def itemFull : TextItem := ⟨"Secret", 12, 10, 20, some 50⟩

/-- A fragment whose box 80..130 overlaps `redC10` by 20 of 50 pixels: the
0.4 horizontal ratio passes the export test (0.3, strict) but fails the
associator test (0.5). -/
def itemPart : TextItem := ⟨"Secret", 12, 80, 20, some 50⟩

theorem geomFull : geomAccept 1 vpId redC10 itemFull := by
  unfold geomAccept overlapWidthOf overlapHeightOf textCenterYOf scaledWidthOf
    scaledHeightOf canvasXOf canvasYOf itemWidthOf fontSizeOf vpId redC10 itemFull
  norm_num

theorem geomPartNeg : ¬ geomAccept 1 vpId redC10 itemPart := by
  unfold geomAccept overlapWidthOf overlapHeightOf textCenterYOf scaledWidthOf
    scaledHeightOf canvasXOf canvasYOf itemWidthOf fontSizeOf vpId redC10 itemPart
  norm_num

theorem exportPartHit : exportHit 1 vpId redC10 itemPart := by
  unfold exportHit overlapWidthOf textCenterYOf scaledWidthOf scaledHeightOf
    canvasXOf canvasYOf itemWidthOf fontSizeOf vpId redC10 itemPart
  norm_num

theorem evalFull : findTextInArea 1 vpId [itemFull] redC10 [] =
    ([mkFound 1 vpId 0 itemFull], [0]) := by
  have hstep : assocStep 1 vpId redC10 ([], []) (0, itemFull) =
      ([mkFound 1 vpId 0 itemFull], [0]) := by
    simp only [assocStep]
    rw [if_neg (List.not_mem_nil 0), if_neg (by decide : ¬ skipItem itemFull),
      if_pos geomFull]
    rfl
  unfold findTextInArea
  have henum : ([itemFull] : List TextItem).enum = [(0, itemFull)] := rfl
  rw [henum, List.foldl_cons, hstep, List.foldl_nil]
  rfl

theorem evalPart : findTextInArea 1 vpId [itemPart] redC10 [] = ([], []) := by
  have hstep : assocStep 1 vpId redC10 ([], []) (0, itemPart) = ([], []) := by
    simp only [assocStep]
    rw [if_neg (List.not_mem_nil 0), if_neg (by decide : ¬ skipItem itemPart),
      if_neg geomPartNeg]
  unfold findTextInArea
  have henum : ([itemPart] : List TextItem).enum = [(0, itemPart)] := rfl
  rw [henum, List.foldl_cons, hstep, List.foldl_nil]
  rfl

theorem evalPartAll : associateAll 1 vpId [itemPart] [redC10] = ([[]], []) := by
  unfold associateAll
  rw [List.foldl_cons, List.foldl_nil]
  unfold associateStep
  rw [evalPart]
  rfl

theorem evalExportPart : renderTextForExport 1 vpId [itemPart] [redC10] = [itemPart] := by
  unfold renderTextForExport
  have h1 : decide (skipItem itemPart) = false := by decide
  have h2 : decide (exportHit 1 vpId redC10 itemPart) = true :=
    decide_eq_true exportPartHit
  simp [List.filter, h1, h2]

/-- Region for the reading-order scenario. -/
def redLine : Rect := ⟨0, 0, 100, 40⟩

/-- Three fragments inside `redLine` with baselines 20, 24, 28: consecutive
baselines are within the 5-pixel same-line tolerance but the outer pair is
not, and the x positions decrease. -/
def itemA : TextItem := ⟨"aa", 12, 10, 20, some 50⟩

/-- Second fragment of the reading-order scenario. -/
def itemB : TextItem := ⟨"bb", 12, 5, 24, some 50⟩

/-- Third fragment of the reading-order scenario. -/
def itemC : TextItem := ⟨"cc", 12, 0, 28, some 50⟩

theorem geomA : geomAccept 1 vpId redLine itemA := by
  unfold geomAccept overlapWidthOf overlapHeightOf textCenterYOf scaledWidthOf
    scaledHeightOf canvasXOf canvasYOf itemWidthOf fontSizeOf vpId redLine itemA
  norm_num

theorem geomB : geomAccept 1 vpId redLine itemB := by
  unfold geomAccept overlapWidthOf overlapHeightOf textCenterYOf scaledWidthOf
    scaledHeightOf canvasXOf canvasYOf itemWidthOf fontSizeOf vpId redLine itemB
  norm_num

theorem geomC : geomAccept 1 vpId redLine itemC := by
  unfold geomAccept overlapWidthOf overlapHeightOf textCenterYOf scaledWidthOf
    scaledHeightOf canvasXOf canvasYOf itemWidthOf fontSizeOf vpId redLine itemC
  norm_num

theorem foundAval : mkFound 1 vpId 0 itemA = ⟨"aa", 10, 20, 50, 12, 12, 0⟩ := by
  unfold mkFound canvasXOf canvasYOf scaledWidthOf scaledHeightOf itemWidthOf
    fontSizeOf vpId itemA
  norm_num [Found.mk.injEq]

theorem foundBval : mkFound 1 vpId 1 itemB = ⟨"bb", 5, 24, 50, 12, 12, 1⟩ := by
  unfold mkFound canvasXOf canvasYOf scaledWidthOf scaledHeightOf itemWidthOf
    fontSizeOf vpId itemB
  norm_num [Found.mk.injEq]

theorem foundCval : mkFound 1 vpId 2 itemC = ⟨"cc", 0, 28, 50, 12, 12, 2⟩ := by
  unfold mkFound canvasXOf canvasYOf scaledWidthOf scaledHeightOf itemWidthOf
    fontSizeOf vpId itemC
  norm_num [Found.mk.injEq]

/-- Sorting the three assigned fragments: `B` is inserted after `C` (same
line, larger x), then `A` is inserted before `C` (different line, smaller y),
yielding A, C, B — with A before B although they are on the same 5-pixel line
and A has the larger x. -/
theorem sortABC :
    sortFound [⟨"aa", 10, 20, 50, 12, 12, 0⟩, ⟨"bb", 5, 24, 50, 12, 12, 1⟩,
      ⟨"cc", 0, 28, 50, 12, 12, 2⟩] =
    [⟨"aa", 10, 20, 50, 12, 12, 0⟩, ⟨"cc", 0, 28, 50, 12, 12, 2⟩,
      ⟨"bb", 5, 24, 50, 12, 12, 1⟩] := by
  have hBC : ¬ foundLE (⟨"bb", 5, 24, 50, 12, 12, 1⟩ : Found)
      ⟨"cc", 0, 28, 50, 12, 12, 2⟩ := by
    unfold foundLE
    norm_num
  have hAC : foundLE (⟨"aa", 10, 20, 50, 12, 12, 0⟩ : Found)
      ⟨"cc", 0, 28, 50, 12, 12, 2⟩ := by
    unfold foundLE
    norm_num
  unfold sortFound
  simp only [List.insertionSort, List.orderedInsert]
  rw [if_neg hBC]
  simp only [List.orderedInsert]
  rw [if_pos hAC]

theorem evalABC : findTextInArea 1 vpId [itemA, itemB, itemC] redLine [] =
    ([⟨"aa", 10, 20, 50, 12, 12, 0⟩, ⟨"cc", 0, 28, 50, 12, 12, 2⟩,
      ⟨"bb", 5, 24, 50, 12, 12, 1⟩], [2, 1, 0]) := by
  have hstepA : assocStep 1 vpId redLine ([], []) (0, itemA) =
      ([mkFound 1 vpId 0 itemA], [0]) := by
    simp only [assocStep]
    rw [if_neg (List.not_mem_nil 0), if_neg (by decide : ¬ skipItem itemA),
      if_pos geomA]
    rfl
  have hstepB : assocStep 1 vpId redLine ([mkFound 1 vpId 0 itemA], [0]) (1, itemB) =
      ([mkFound 1 vpId 0 itemA, mkFound 1 vpId 1 itemB], [1, 0]) := by
    simp only [assocStep]
    rw [if_neg (by decide : ¬ (1 : ℕ) ∈ [0]), if_neg (by decide : ¬ skipItem itemB),
      if_pos geomB]
    rfl
  have hstepC : assocStep 1 vpId redLine
      ([mkFound 1 vpId 0 itemA, mkFound 1 vpId 1 itemB], [1, 0]) (2, itemC) =
      ([mkFound 1 vpId 0 itemA, mkFound 1 vpId 1 itemB, mkFound 1 vpId 2 itemC],
       [2, 1, 0]) := by
    simp only [assocStep]
    rw [if_neg (by decide : ¬ (2 : ℕ) ∈ [1, 0]), if_neg (by decide : ¬ skipItem itemC),
      if_pos geomC]
    rfl
  unfold findTextInArea
  have henum : ([itemA, itemB, itemC] : List TextItem).enum =
      [(0, itemA), (1, itemB), (2, itemC)] := rfl
  rw [henum, List.foldl_cons, hstepA, List.foldl_cons, hstepB, List.foldl_cons,
    hstepC, List.foldl_nil, foundAval, foundBval, foundCval, sortABC]

/-! ### General association lemmas -/

/-- Indices that never occur in the folded list are untouched: their presence
in the found list and in the assigned set is unchanged. -/
theorem assocFold_frame (scale : ℚ) (vp : Viewport) (red : Rect) :
    ∀ (L : List (ℕ × TextItem)) (f0 : List Found) (s0 : List ℕ) (i : ℕ),
      (∀ it, (i, it) ∉ L) →
      ((∃ fd ∈ (L.foldl (assocStep scale vp red) (f0, s0)).1, fd.index = i) ↔
        (∃ fd ∈ f0, fd.index = i)) ∧
      (i ∈ (L.foldl (assocStep scale vp red) (f0, s0)).2 ↔ i ∈ s0) := by
  intro L
  induction L with
  | nil => intro f0 s0 i _; exact ⟨Iff.rfl, Iff.rfl⟩
  | cons q L ih =>
    intro f0 s0 i hni
    obtain ⟨j, it⟩ := q
    have hji : j ≠ i := by
      intro e
      exact hni it (by rw [← e]; exact List.mem_cons_self _ _)
    have hni2 : ∀ it2, (i, it2) ∉ L :=
      fun it2 h2 => hni it2 (List.mem_cons_of_mem _ h2)
    rw [List.foldl_cons]
    by_cases h1 : j ∈ s0
    · have hstep : assocStep scale vp red (f0, s0) (j, it) = (f0, s0) := by
        simp only [assocStep]
        rw [if_pos h1]
      rw [hstep]
      exact ih f0 s0 i hni2
    · by_cases h2 : skipItem it
      · have hstep : assocStep scale vp red (f0, s0) (j, it) = (f0, s0) := by
          simp only [assocStep]
          rw [if_neg h1, if_pos h2]
        rw [hstep]
        exact ih f0 s0 i hni2
      · by_cases h3 : geomAccept scale vp red it
        · have hstep : assocStep scale vp red (f0, s0) (j, it)
              = (f0 ++ [mkFound scale vp j it], j :: s0) := by
            simp only [assocStep]
            rw [if_neg h1, if_neg h2, if_pos h3]
          rw [hstep]
          obtain ⟨ih1, ih2⟩ := ih (f0 ++ [mkFound scale vp j it]) (j :: s0) i hni2
          constructor
          · rw [ih1]
            constructor
            · rintro ⟨fd, hfd, hidx⟩
              rcases List.mem_append.mp hfd with h | h
              · exact ⟨fd, h, hidx⟩
              · rw [List.mem_singleton.mp h] at hidx
                exact absurd hidx hji
            · rintro ⟨fd, hfd, hidx⟩
              exact ⟨fd, List.mem_append.mpr (Or.inl hfd), hidx⟩
          · rw [ih2, List.mem_cons]
            constructor
            · rintro (h | h)
              · exact absurd h.symm hji
              · exact h
            · exact Or.inr
        · have hstep : assocStep scale vp red (f0, s0) (j, it) = (f0, s0) := by
            simp only [assocStep]
            rw [if_neg h1, if_neg h2, if_neg h3]
          rw [hstep]
          exact ih f0 s0 i hni2

/-- Characterization of one fragment's fate through the association fold: a
not-yet-assigned, non-skipped fragment ends in the found list (and in the
assigned set) exactly when the geometric test accepts it. -/
theorem assocFold_index (scale : ℚ) (vp : Viewport) (red : Rect) :
    ∀ (L : List (ℕ × TextItem)) (f0 : List Found) (s0 : List ℕ) (i : ℕ)
      (it : TextItem),
      (i, it) ∈ L → (L.map Prod.fst).Nodup → i ∉ s0 →
      (∀ fd ∈ f0, fd.index ≠ i) → ¬ skipItem it →
      ((∃ fd ∈ (L.foldl (assocStep scale vp red) (f0, s0)).1, fd.index = i) ↔
        geomAccept scale vp red it) ∧
      (i ∈ (L.foldl (assocStep scale vp red) (f0, s0)).2 ↔
        geomAccept scale vp red it) := by
  intro L
  induction L with
  | nil => intro f0 s0 i it hmem _ _ _ _; exact absurd hmem (List.not_mem_nil _)
  | cons q L ih =>
    intro f0 s0 i it hmem hnd hs hf0 hsk
    obtain ⟨j, jt⟩ := q
    have hndL : (L.map Prod.fst).Nodup := by
      rw [List.map_cons] at hnd
      exact (List.nodup_cons.mp hnd).2
    have hjL : j ∉ L.map Prod.fst := by
      rw [List.map_cons] at hnd
      exact (List.nodup_cons.mp hnd).1
    rw [List.foldl_cons]
    rcases List.mem_cons.mp hmem with he | hmem2
    · injection he with hij hit
      subst hij
      subst hit
      have hniL : ∀ it2, (i, it2) ∉ L := by
        intro it2 h2
        exact hjL (List.mem_map.mpr ⟨(i, it2), h2, rfl⟩)
      by_cases hg : geomAccept scale vp red it
      · have hstep : assocStep scale vp red (f0, s0) (i, it)
            = (f0 ++ [mkFound scale vp i it], i :: s0) := by
          simp only [assocStep]
          rw [if_neg hs, if_neg hsk, if_pos hg]
        rw [hstep]
        obtain ⟨fr1, fr2⟩ :=
          assocFold_frame scale vp red L (f0 ++ [mkFound scale vp i it]) (i :: s0) i hniL
        constructor
        · rw [fr1]
          exact iff_of_true
            ⟨mkFound scale vp i it,
              List.mem_append.mpr (Or.inr (List.mem_singleton_self _)), rfl⟩ hg
        · rw [fr2]
          exact iff_of_true (List.mem_cons_self _ _) hg
      · have hstep : assocStep scale vp red (f0, s0) (i, it) = (f0, s0) := by
          simp only [assocStep]
          rw [if_neg hs, if_neg hsk, if_neg hg]
        rw [hstep]
        obtain ⟨fr1, fr2⟩ := assocFold_frame scale vp red L f0 s0 i hniL
        constructor
        · rw [fr1]
          exact iff_of_false
            (fun h => by
              obtain ⟨fd, hfd, hidx⟩ := h
              exact hf0 fd hfd hidx) hg
        · rw [fr2]
          exact iff_of_false hs hg
    · have hji : j ≠ i := by
        intro e
        subst e
        exact hjL (List.mem_map.mpr ⟨(j, it), hmem2, rfl⟩)
      by_cases h1 : j ∈ s0
      · have hstep : assocStep scale vp red (f0, s0) (j, jt) = (f0, s0) := by
          simp only [assocStep]
          rw [if_pos h1]
        rw [hstep]
        exact ih f0 s0 i it hmem2 hndL hs hf0 hsk
      · by_cases h2 : skipItem jt
        · have hstep : assocStep scale vp red (f0, s0) (j, jt) = (f0, s0) := by
            simp only [assocStep]
            rw [if_neg h1, if_pos h2]
          rw [hstep]
          exact ih f0 s0 i it hmem2 hndL hs hf0 hsk
        · by_cases h3 : geomAccept scale vp red jt
          · have hstep : assocStep scale vp red (f0, s0) (j, jt)
                = (f0 ++ [mkFound scale vp j jt], j :: s0) := by
              simp only [assocStep]
              rw [if_neg h1, if_neg h2, if_pos h3]
            rw [hstep]
            apply ih (f0 ++ [mkFound scale vp j jt]) (j :: s0) i it hmem2 hndL
            · rw [List.mem_cons]
              rintro (h | h)
              · exact hji h.symm
              · exact hs h
            · intro fd hfd
              rcases List.mem_append.mp hfd with h | h
              · exact hf0 fd h
              · rw [List.mem_singleton.mp h]
                exact hji
            · exact hsk
          · have hstep : assocStep scale vp red (f0, s0) (j, jt) = (f0, s0) := by
              simp only [assocStep]
              rw [if_neg h1, if_neg h2, if_neg h3]
            rw [hstep]
            exact ih f0 s0 i it hmem2 hndL hs hf0 hsk

/-- C3: for a region, an assigned set and a fragment with source index `i`
that is not yet assigned, is non-empty and is not the sentinel,
`findTextInArea` puts the fragment into the region's found list iff the
horizontal overlap ratio is at least 0.5, the vertical center lies within the
region's span inclusive, and the vertical intersection is positive — and it
marks `i` in the page-wide assigned set under exactly the same condition. -/
theorem findTextInArea_assigns_iff (scale : ℚ) (vp : Viewport)
    (items : List TextItem) (red : Rect) (s : List ℕ) (i : ℕ) (it : TextItem)
    (hmem : (i, it) ∈ items.enum) (hs : i ∉ s) (hsk : ¬ skipItem it) :
    ((∃ fd ∈ (findTextInArea scale vp items red s).1, fd.index = i) ↔
      geomAccept scale vp red it) ∧
    (i ∈ (findTextInArea scale vp items red s).2 ↔
      geomAccept scale vp red it) := by
  have hnd : (items.enum.map Prod.fst).Nodup := by
    rw [List.enum_map_fst]
    exact List.nodup_range _
  obtain ⟨h1, h2⟩ := assocFold_index scale vp red items.enum [] s i it hmem hnd hs
    (fun fd hfd => absurd hfd (List.not_mem_nil fd)) hsk
  have hp := List.perm_insertionSort foundLE
    (items.enum.foldl (assocStep scale vp red) ([], s)).1
  constructor
  · rw [← h1]
    unfold findTextInArea sortFound
    exact ⟨fun ⟨fd, hfd, hx⟩ => ⟨fd, hp.mem_iff.mp hfd, hx⟩,
      fun ⟨fd, hfd, hx⟩ => ⟨fd, hp.mem_iff.mpr hfd, hx⟩⟩
  · exact h2

/-- C3 witness: the fully-covered fragment of the concrete scenario is
assigned and its index marked used. -/
theorem findTextInArea_assigns_iff_witness :
    (∃ fd ∈ (findTextInArea 1 vpId [itemFull] redC10 []).1, fd.index = 0) ∧
    0 ∈ (findTextInArea 1 vpId [itemFull] redC10 []).2 := by
  have h := findTextInArea_assigns_iff 1 vpId [itemFull] redC10 [] 0 itemFull
    (by decide) (List.not_mem_nil 0) (by decide)
  exact ⟨h.1.mpr geomFull, h.2.mpr geomFull⟩

/-- State invariant of the association fold: the assigned set only grows,
found indices are distinct, assigned, fresh relative to the initial set
`s0`, and every found entry is a `mkFound` of a non-skipped fragment. -/
theorem assocFold_state (scale : ℚ) (vp : Viewport) (red : Rect) (s0 : List ℕ) :
    ∀ (L : List (ℕ × TextItem)) (f : List Found) (s : List ℕ),
      (∀ j ∈ s0, j ∈ s) →
      (f.map Found.index).Nodup →
      (∀ fd ∈ f, fd.index ∈ s) →
      (∀ fd ∈ f, fd.index ∉ s0) →
      (∀ fd ∈ f, ∃ p : ℕ × TextItem, fd = mkFound scale vp p.1 p.2 ∧
        ¬ skipItem p.2) →
      (∀ j ∈ s, j ∈ (L.foldl (assocStep scale vp red) (f, s)).2) ∧
      ((L.foldl (assocStep scale vp red) (f, s)).1.map Found.index).Nodup ∧
      (∀ fd ∈ (L.foldl (assocStep scale vp red) (f, s)).1,
        fd.index ∈ (L.foldl (assocStep scale vp red) (f, s)).2) ∧
      (∀ fd ∈ (L.foldl (assocStep scale vp red) (f, s)).1, fd.index ∉ s0) ∧
      (∀ fd ∈ (L.foldl (assocStep scale vp red) (f, s)).1,
        ∃ p : ℕ × TextItem, fd = mkFound scale vp p.1 p.2 ∧ ¬ skipItem p.2) := by
  intro L
  induction L with
  | nil =>
    intro f s hs0 hnd hidx hfresh hprov
    exact ⟨fun j hj => hj, hnd, hidx, hfresh, hprov⟩
  | cons q L ih =>
    intro f s hs0 hnd hidx hfresh hprov
    obtain ⟨j, it⟩ := q
    rw [List.foldl_cons]
    by_cases h1 : j ∈ s
    · have hstep : assocStep scale vp red (f, s) (j, it) = (f, s) := by
        simp only [assocStep]
        rw [if_pos h1]
      rw [hstep]
      exact ih f s hs0 hnd hidx hfresh hprov
    · by_cases h2 : skipItem it
      · have hstep : assocStep scale vp red (f, s) (j, it) = (f, s) := by
          simp only [assocStep]
          rw [if_neg h1, if_pos h2]
        rw [hstep]
        exact ih f s hs0 hnd hidx hfresh hprov
      · by_cases h3 : geomAccept scale vp red it
        · have hstep : assocStep scale vp red (f, s) (j, it)
              = (f ++ [mkFound scale vp j it], j :: s) := by
            simp only [assocStep]
            rw [if_neg h1, if_neg h2, if_pos h3]
          rw [hstep]
          have hjf : j ∉ f.map Found.index := by
            intro hmem
            obtain ⟨fd, hfd, hfde⟩ := List.mem_map.mp hmem
            exact h1 (hfde ▸ hidx fd hfd)
          obtain ⟨g1, g2, g3, g4, g5⟩ := ih (f ++ [mkFound scale vp j it]) (j :: s)
            (fun k hk => List.mem_cons_of_mem _ (hs0 k hk))
            (by
              rw [List.map_append]
              rw [List.nodup_append]
              refine ⟨hnd, List.nodup_singleton _, ?_⟩
              intro a ha hb
              have hab : a = (mkFound scale vp j it).index := by simpa using hb
              rw [hab] at ha
              exact hjf ha)
            (by
              intro fd hfd
              rcases List.mem_append.mp hfd with h | h
              · exact List.mem_cons_of_mem _ (hidx fd h)
              · rw [List.mem_singleton.mp h]
                exact List.mem_cons_self _ _)
            (by
              intro fd hfd
              rcases List.mem_append.mp hfd with h | h
              · exact hfresh fd h
              · rw [List.mem_singleton.mp h]
                exact fun hj0 => h1 (hs0 j hj0))
            (by
              intro fd hfd
              rcases List.mem_append.mp hfd with h | h
              · exact hprov fd h
              · exact ⟨(j, it), List.mem_singleton.mp h, h2⟩)
          exact ⟨fun k hk => g1 k (List.mem_cons_of_mem _ hk), g2, g3, g4, g5⟩
        · have hstep : assocStep scale vp red (f, s) (j, it) = (f, s) := by
            simp only [assocStep]
            rw [if_neg h1, if_neg h2, if_neg h3]
          rw [hstep]
          exact ih f s hs0 hnd hidx hfresh hprov

/-- The per-call facts of `findTextInArea`, after the sort: the assigned set
grows, the found indices are distinct, recorded, and fresh, and every found
entry stems from a non-skipped fragment. -/
theorem findTextInArea_state (scale : ℚ) (vp : Viewport) (items : List TextItem)
    (red : Rect) (s : List ℕ) :
    (∀ j ∈ s, j ∈ (findTextInArea scale vp items red s).2) ∧
    ((findTextInArea scale vp items red s).1.map Found.index).Nodup ∧
    (∀ fd ∈ (findTextInArea scale vp items red s).1,
      fd.index ∈ (findTextInArea scale vp items red s).2) ∧
    (∀ fd ∈ (findTextInArea scale vp items red s).1, fd.index ∉ s) ∧
    (∀ fd ∈ (findTextInArea scale vp items red s).1,
      ∃ p : ℕ × TextItem, fd = mkFound scale vp p.1 p.2 ∧ ¬ skipItem p.2) := by
  obtain ⟨g1, g2, g3, g4, g5⟩ := assocFold_state scale vp red s items.enum [] s
    (fun j hj => hj) List.nodup_nil
    (fun fd hfd => absurd hfd (List.not_mem_nil fd))
    (fun fd hfd => absurd hfd (List.not_mem_nil fd))
    (fun fd hfd => absurd hfd (List.not_mem_nil fd))
  have hp := List.perm_insertionSort foundLE
    (items.enum.foldl (assocStep scale vp red) ([], s)).1
  refine ⟨g1, ?_, ?_, ?_, ?_⟩
  · exact ((hp.map Found.index).nodup_iff).mpr g2
  · intro fd hfd
    exact g3 fd (hp.mem_iff.mp hfd)
  · intro fd hfd
    exact g4 fd (hp.mem_iff.mp hfd)
  · intro fd hfd
    exact g5 fd (hp.mem_iff.mp hfd)

/-- Invariant of the per-page region loop: across all regions the found
indices remain distinct and recorded in the shared set, and every found entry
stems from a non-skipped fragment. -/
theorem associateFold_all (scale : ℚ) (vp : Viewport) (items : List TextItem) :
    ∀ (reds : List Rect) (acc : List (List Found)) (s : List ℕ),
      ((acc.map (fun ht => ht.map Found.index)).flatten).Nodup →
      (∀ i ∈ (acc.map (fun ht => ht.map Found.index)).flatten, i ∈ s) →
      (∀ ht ∈ acc, ∀ fd ∈ ht, ∃ p : ℕ × TextItem,
        fd = mkFound scale vp p.1 p.2 ∧ ¬ skipItem p.2) →
      (((reds.foldl (associateStep scale vp items) (acc, s)).1.map
          (fun ht => ht.map Found.index)).flatten).Nodup ∧
      (∀ i ∈ ((reds.foldl (associateStep scale vp items) (acc, s)).1.map
          (fun ht => ht.map Found.index)).flatten,
        i ∈ (reds.foldl (associateStep scale vp items) (acc, s)).2) ∧
      (∀ ht ∈ (reds.foldl (associateStep scale vp items) (acc, s)).1, ∀ fd ∈ ht,
        ∃ p : ℕ × TextItem, fd = mkFound scale vp p.1 p.2 ∧ ¬ skipItem p.2) := by
  intro reds
  induction reds with
  | nil =>
    intro acc s hnd hmem hprov
    exact ⟨hnd, hmem, hprov⟩
  | cons red reds ih =>
    intro acc s hnd hmem hprov
    obtain ⟨c1, c2, c3, c4, c5⟩ := findTextInArea_state scale vp items red s
    rw [List.foldl_cons]
    have hstep : associateStep scale vp items (acc, s) red
        = (acc ++ [(findTextInArea scale vp items red s).1],
           (findTextInArea scale vp items red s).2) := rfl
    rw [hstep]
    apply ih
    · rw [List.map_append, List.flatten_append]
      rw [List.nodup_append]
      refine ⟨hnd, by simpa using c2, ?_⟩
      intro a ha hb
      have ha2 : a ∈ s := hmem a ha
      have hb2 : a ∈ ((findTextInArea scale vp items red s).1.map Found.index) := by
        simpa using hb
      obtain ⟨fd, hfd, hfde⟩ := List.mem_map.mp hb2
      exact c4 fd hfd (hfde ▸ ha2)
    · intro i hi
      rw [List.map_append, List.flatten_append] at hi
      rcases List.mem_append.mp hi with h | h
      · exact c1 i (hmem i h)
      · have h2 : i ∈ ((findTextInArea scale vp items red s).1.map Found.index) := by
          simpa using h
        obtain ⟨fd, hfd, hfde⟩ := List.mem_map.mp h2
        exact hfde ▸ c3 fd hfd
    · intro ht hht fd hfd
      rcases List.mem_append.mp hht with h | h
      · exact hprov ht h fd hfd
      · rw [List.mem_singleton.mp h] at hfd
        exact c5 fd hfd

/-- C6: across one page's regions, the union of `hiddenText` source indices
contains no duplicates — each fragment is assigned to at most one region. -/
theorem associateAll_indices_nodup (scale : ℚ) (vp : Viewport)
    (items : List TextItem) (reds : List Rect) :
    (((associateAll scale vp items reds).1.map
      (fun ht => ht.map Found.index)).flatten).Nodup := by
  obtain ⟨h1, _, _⟩ := associateFold_all scale vp items reds [] []
    List.nodup_nil (fun i hi => absurd hi (List.not_mem_nil i))
    (fun ht hht => absurd hht (List.not_mem_nil ht))
  exact h1

/-- C7: a fragment whose trimmed content is empty or equals the sentinel
`"1111"` never appears in any region's `hiddenText`, and is never drawn by
the export path, regardless of geometric overlap. -/
theorem sentinel_never_in_output (scale : ℚ) (vp : Viewport)
    (items : List TextItem) (reds : List Rect) :
    (∀ ht ∈ (associateAll scale vp items reds).1, ∀ fd ∈ ht,
      jsTrim fd.text ≠ "" ∧ jsTrim fd.text ≠ "1111") ∧
    (∀ it2 ∈ renderTextForExport scale vp items reds,
      jsTrim it2.str ≠ "" ∧ jsTrim it2.str ≠ "1111") := by
  constructor
  · intro ht hht fd hfd
    obtain ⟨_, _, h3⟩ := associateFold_all scale vp items reds [] []
      List.nodup_nil (fun i hi => absurd hi (List.not_mem_nil i))
      (fun ht2 hht2 => absurd hht2 (List.not_mem_nil ht2))
    obtain ⟨p, hpe, hpsk⟩ := h3 ht hht fd hfd
    unfold skipItem at hpsk
    push_neg at hpsk
    rw [hpe]
    exact ⟨hpsk.2.1, hpsk.2.2⟩
  · intro it2 hit2
    obtain ⟨_, hpred⟩ := List.mem_filter.mp hit2
    rw [Bool.and_eq_true] at hpred
    have hskip : ¬ skipItem it2 := by
      have := hpred.1
      rw [Bool.not_eq_true'] at this
      exact of_decide_eq_false this
    unfold skipItem at hskip
    push_neg at hskip
    exact ⟨hskip.2.1, hskip.2.2⟩

theorem evalFullAll : associateAll 1 vpId [itemFull] [redC10]
    = ([[mkFound 1 vpId 0 itemFull]], [0]) := by
  unfold associateAll
  rw [List.foldl_cons, List.foldl_nil]
  unfold associateStep
  rw [evalFull]
  rfl

/-- C7 witness: the assigned fragment of the full-overlap scenario and the
drawn fragment of the export scenario are both non-sentinel. -/
theorem sentinel_never_in_output_witness :
    jsTrim (mkFound 1 vpId 0 itemFull).text ≠ "" ∧
    jsTrim (mkFound 1 vpId 0 itemFull).text ≠ "1111" ∧
    jsTrim itemPart.str ≠ "" ∧ jsTrim itemPart.str ≠ "1111" := by
  have h := sentinel_never_in_output 1 vpId [itemFull] [redC10]
  have h2 := sentinel_never_in_output 1 vpId [itemPart] [redC10]
  have hm : [mkFound 1 vpId 0 itemFull] ∈ (associateAll 1 vpId [itemFull] [redC10]).1 := by
    rw [evalFullAll]
    exact List.mem_singleton_self _
  have hfd := h.1 _ hm (mkFound 1 vpId 0 itemFull) (List.mem_singleton_self _)
  have hex : itemPart ∈ renderTextForExport 1 vpId [itemPart] [redC10] := by
    rw [evalExportPart]
    exact List.mem_singleton_self _
  have hst := h2.2 itemPart hex
  exact ⟨hfd.1, hfd.2, hst.1, hst.2⟩

/-- C8 counterexample: on three fragments assigned to one region the sorted
`hiddenText` is `[index 0, index 2, index 1]`, yet the fragments with indices
0 and 1 have baselines within 5 pixels of each other and index 0 has the
larger x — so same-line fragments are not ordered by ascending x (the 5-pixel
same-line relation is not transitive, and no order satisfies the claim on
this input). -/
theorem hiddenText_not_sorted_by_claim :
    (findTextInArea 1 vpId [itemA, itemB, itemC] redLine []).1.map Found.index
      = [0, 2, 1] ∧
    |(mkFound 1 vpId 0 itemA).y - (mkFound 1 vpId 1 itemB).y| < 5 ∧
    (mkFound 1 vpId 1 itemB).x < (mkFound 1 vpId 0 itemA).x := by
  refine ⟨?_, ?_, ?_⟩
  · rw [evalABC]
    rfl
  · rw [foundAval, foundBval]
    norm_num
  · rw [foundAval, foundBval]
    norm_num

/-- C8 (amended): for a region whose assigned list consists of exactly two
fragments on the same 5-pixel line with different x, the sort places the
smaller-x fragment first, whichever order they were assigned in; the general
ordering claim fails for three or more fragments (see the counterexample). -/
theorem sortFound_pair_by_x (a b : Found) (hy : |a.y - b.y| < 5)
    (hx : a.x < b.x) :
    sortFound [a, b] = [a, b] ∧ sortFound [b, a] = [a, b] := by
  have hab : foundLE a b := by
    unfold foundLE
    rw [if_pos hy]
    linarith
  have hba : ¬ foundLE b a := by
    unfold foundLE
    rw [if_pos (by rw [abs_sub_comm]; exact hy)]
    simp
    linarith
  constructor
  · unfold sortFound
    simp only [List.insertionSort, List.orderedInsert]
    rw [if_pos hab]
  · unfold sortFound
    simp only [List.insertionSort, List.orderedInsert]
    rw [if_neg hba]

/-- C8 (amended) witness at a concrete same-line pair. -/
theorem sortFound_pair_by_x_witness :
    sortFound [⟨"p", 1, 0, 9, 9, 9, 0⟩, ⟨"q", 2, 3, 9, 9, 9, 1⟩]
      = [⟨"p", 1, 0, 9, 9, 9, 0⟩, ⟨"q", 2, 3, 9, 9, 9, 1⟩] ∧
    sortFound [⟨"q", 2, 3, 9, 9, 9, 1⟩, ⟨"p", 1, 0, 9, 9, 9, 0⟩]
      = [⟨"p", 1, 0, 9, 9, 9, 0⟩, ⟨"q", 2, 3, 9, 9, 9, 1⟩] :=
  sortFound_pair_by_x ⟨"p", 1, 0, 9, 9, 9, 0⟩ ⟨"q", 2, 3, 9, 9, 9, 1⟩
    (by norm_num) (by norm_num)

/-- C10: the reveal/export decision (strict 0.3 horizontal threshold plus
vertical-center test against the raw region list, no assigned-set check)
differs from the associator (0.5 threshold, assigned set): on a fragment
overlapping a region by 20 of its 50 pixels the export path draws it while
no region's `hiddenText` contains it. -/
theorem export_draws_differ_from_hiddenText :
    (renderTextForExport 1 vpId [itemPart] [redC10]).map TextItem.str
      = ["Secret"] ∧
    ((associateAll 1 vpId [itemPart] [redC10]).1.map
      (fun ht => ht.map Found.index)) = [[]] ∧
    overlapWidthOf 1 vpId redC10 itemPart = 20 ∧
    scaledWidthOf 1 itemPart = 50 := by
  refine ⟨?_, ?_, ?_, ?_⟩
  · rw [evalExportPart]
    rfl
  · rw [evalPartAll]
    rfl
  · unfold overlapWidthOf canvasXOf scaledWidthOf itemWidthOf fontSizeOf vpId
      redC10 itemPart
    norm_num
  · unfold scaledWidthOf itemWidthOf fontSizeOf itemPart
    norm_num
